import Mathlib

/-!
# Shallow embedding of `cli.hpp` (namespace `cli`)

Conventions of the embedding.

* A null-terminated C string is the list of its characters before the
  terminator; the end of the list is the terminator, so `*p == 0` reads
  `p = []` and `p++` is the tail.  A pointer into a string is the suffix it
  points at.  A possibly-null `const char *` is an `Option (List Char)`.
* `int` is an `Int` kept in the 32-bit two's complement range by `wrapInt32`.
* `float` is a type parameter `F`; the C library's `atof` followed by the cast
  to `float` is a parameter `atof : List Char → F`.
* Writing outside a fixed-size array is undefined behaviour in C++; the
  embedding makes it an explicit `Fault`.
* The logging macros `CLI_DEBUG` and `CLI_WARN` expand to nothing.
-/

namespace cli

/-- The constant `CLI_MAX_CMD_PARTS`. -/
def CLI_MAX_CMD_PARTS : Nat := 4

/-- The constant `CLI_ARG_MAX_TEXT_LEN`. -/
def CLI_ARG_MAX_TEXT_LEN : Nat := 16

/-- Undefined behaviour the code can run into: a store outside an array. -/
inductive Fault where
  /-- The call of `strncpy` writes past the end of `Argument::Result::text`. -/
  | textOverflow
  /-- A store to `arguments[i]` with `i >= CLI_MAX_CMD_PARTS`. -/
  | argsIndex
  /-- A store to `m_parts[i]` with `i >= CLI_MAX_CMD_PARTS`. -/
  | partsIndex
  deriving DecidableEq

deriving instance DecidableEq for Except

/-! ## C library functions used by the source -/

/-- The NUL character, the terminator of a C string. -/
def NUL : Char := Char.ofNat 0

/-- C `isspace` in the "C" locale: space, `\t`, `\n`, `\v`, `\f`, `\r`. -/
def isspace (c : Char) : Bool :=
  c.toNat = 32 || (9 ≤ c.toNat && c.toNat ≤ 13)

/-- C `isdigit`. -/
def isdigit (c : Char) : Bool :=
  48 ≤ c.toNat && c.toNat ≤ 57

/-- C `strlen`. -/
def strlen (s : List Char) : Nat := s.length

/-- C `strcspn(s, reject)`: length of the leading run of `s` that has no
character of `reject`. -/
def strcspn : List Char → List Char → Nat
  | [], _ => 0
  | c :: cs, reject => if c ∈ reject then 0 else strcspn cs reject + 1

/-- C `strncpy(dest, src, n)` on a destination array `dest`: bytes `0..n-1`
of `dest` receive the first `n` bytes of `src`, padded with NUL when `src` is
shorter; the rest of `dest` is untouched.  The `n` stores go to offsets
`0..n-1`, so `n` larger than the array is a store outside it. -/
def strncpy (dest src : List Char) (n : Nat) : Except Fault (List Char) :=
  if n ≤ dest.length then
    .ok (src.take n ++ List.replicate (n - src.length) NUL ++ dest.drop n)
  else .error .textOverflow

/-- Two's complement wrap of an integer to 32 bits. -/
def wrapInt32 (z : Int) : Int := (z + 2 ^ 31) % 2 ^ 32 - 2 ^ 31

/-- Value of the leading run of decimal digits, accumulated left to right. -/
def digitsVal : Nat → List Char → Nat
  | acc, [] => acc
  | acc, c :: cs => if isdigit c then digitsVal (acc * 10 + (c.toNat - 48)) cs else acc

/-- C `atoi`: skip leading white space, read an optional sign, then the
leading run of decimal digits.  A value outside the `int` range is undefined
in C; the embedding wraps it to 32 bits. -/
def atoi : List Char → Int
  | [] => 0
  | c :: cs =>
    if isspace c then atoi cs
    else if c = '-' then wrapInt32 (-(digitsVal 0 cs : Int))
    else if c = '+' then wrapInt32 (digitsVal 0 cs)
    else wrapInt32 (digitsVal 0 (c :: cs))

/-! ## `class Argument` -/

/-- The enumeration `Argument::Type`. -/
inductive ArgType where
  | fail
  | word
  | integer
  | decimal
  deriving DecidableEq

/-- The `union Argument::Result`, as its active member. -/
inductive Result (F : Type) where
  /-- Member `char text[CLI_ARG_MAX_TEXT_LEN]`. -/
  | text (buf : List Char)
  /-- Member `int integer`. -/
  | integer (v : Int)
  /-- Member `float decimal`. -/
  | decimal (v : F)
  deriving DecidableEq

/-- The initial value of the union: `text = {0}`. -/
def Result.zero (F : Type) : Result F :=
  .text (List.replicate CLI_ARG_MAX_TEXT_LEN NUL)

/-- The `class Argument`: `m_type = Type::fail`, `m_value = {}` by default. -/
structure Argument (F : Type) where
  m_type : ArgType := .fail
  m_value : Result F := Result.zero F
  deriving DecidableEq

namespace Argument

variable {F : Type}

/-- The constructor `Argument::fail()`. -/
def fail : Argument F := {}

/-- The constructor `Argument::integer(value)`. -/
def integer (value : Int) : Argument F :=
  let a : Argument F := {}
  { a with m_type := .integer, m_value := .integer value }

/-- The constructor `Argument::decimal(value)`. -/
def decimal (value : F) : Argument F :=
  let a : Argument F := {}
  { a with m_type := .decimal, m_value := .decimal value }

/-- The array `m_value.text` of an Argument (the zero array when another
member of the union is active). -/
def textBuf (a : Argument F) : List Char :=
  match a.m_value with
  | .text buf => buf
  | _ => List.replicate CLI_ARG_MAX_TEXT_LEN NUL

/-- The constructor `Argument::text(value)`: `strncpy` of the leading run without a space
character into the zeroed `text` array. -/
def text (value : List Char) : Except Fault (Argument F) :=
  let size := strcspn value [' ']
  let a : Argument F := {}
  match strncpy a.textBuf value size with
  | .ok buf => .ok { a with m_type := .word, m_value := .text buf }
  | .error e => .error e

/-- The accessor `Argument::getType()`. -/
def getType (a : Argument F) : ArgType := a.m_type

/-- The accessor `Argument::getText()` read as a C string: the bytes of `m_value.text`
before the first NUL, or `none` when the array holds no NUL (the string then
runs past the array). -/
def getText (a : Argument F) : Option (List Char) :=
  let buf := a.textBuf
  if NUL ∈ buf then some (buf.takeWhile (· ≠ NUL)) else none

/-- The accessor `Argument::getInt()`. -/
def getInt (a : Argument F) : Int :=
  if a.getType ≠ .integer then 0
  else match a.m_value with
    | .integer v => v
    | _ => 0

end Argument

/-- The alias `using Arguments = std::array<Argument, CLI_MAX_CMD_PARTS>`. -/
abbrev Arguments (F : Type) := List (Argument F)

/-- A default-initialised `Arguments` array. -/
def Arguments.init (F : Type) : Arguments F :=
  List.replicate CLI_MAX_CMD_PARTS {}

/-! ## `class Token` -/

/-- The enumeration `Token::SchemaType`. -/
inductive SchemaType where
  | subcommand
  | argString
  | argInteger
  | argDecimal
  deriving DecidableEq

/-- The `class Token`; the default value is the default-constructed `Token()`. -/
structure Token where
  m_str : Option (List Char) := none
  m_partLen : Nat := 0
  m_type : SchemaType := .subcommand
  deriving DecidableEq

namespace Token

/-- The function `Token::parseType`. -/
def parseType (str : List Char) : SchemaType :=
  if "?s".toList = str then .argString
  else if "?i".toList = str then .argInteger
  else if "?f".toList = str then .argDecimal
  else .subcommand

/-- The function `Token::parseLen`. -/
def parseLen (str : List Char) : Nat := strlen str

/-- The constructor `Token::Token(const char *str)`. -/
def ofStr (str : List Char) : Token :=
  { m_str := some str, m_partLen := parseLen str, m_type := parseType str }

/-- The accessor `Token::getSchemaType()`. -/
def getSchemaType (t : Token) : SchemaType := t.m_type

/-- The accessor `Token::c_str()`. -/
def c_str (t : Token) : Option (List Char) := t.m_str

/-- The test `Token::isEmpty()`. -/
def isEmpty (t : Token) : Bool := t.m_str.isNone

/-- The accessor `Token::len()`. -/
def len (t : Token) : Nat := t.m_partLen

/-- The function `Token::cmp`: the loop compares `m_str[i]` with `str[i]` for `i < len()`
and returns false at the first difference; the byte at the end of a string is
its terminator. -/
def cmp (t : Token) (str : Option (List Char)) : Bool :=
  match t.m_str, str with
  | some m, some s =>
    if t.len = 0 then false
    else (List.range t.len).all fun i => m.getD i NUL == s.getD i NUL
  | _, _ => false

variable {F : Type}

/-- The function `Token::parse`. -/
def parse (atof : List Char → F) (t : Token) (str : Option (List Char)) :
    Except Fault (Argument F) :=
  if t.isEmpty || t.len = 0 then .ok Argument.fail
  else
    match str with
    | none => .ok Argument.fail
    | some s =>
      match t.m_type with
      | .subcommand => if t.cmp str then Argument.text s else .ok Argument.fail
      | .argString => Argument.text s
      | .argInteger => .ok (Argument.integer (atoi s))
      | .argDecimal => .ok (Argument.decimal (atof s))

end Token

/-! ## `class Cmd` -/

/-- An `operator[]` store into a `std::array` of `arr.length` elements. -/
def arrayStore {α : Type} (arr : List α) (i : Nat) (v : α) (e : Fault) :
    Except Fault (List α) :=
  if i < arr.length then .ok (arr.set i v) else .error e

/-- The `class Cmd`, without the callback (its invocations are recorded by
`tryRun`). -/
structure Cmd where
  m_parts : List Token := List.replicate CLI_MAX_CMD_PARTS {}
  m_numParts : Nat := 0
  deriving DecidableEq

/-- What a call of `tryRun` does: the value it returns and the argument arrays
the callback was invoked with, in order. -/
structure RunResult (F : Type) where
  returned : Bool
  calls : List (Arguments F)
  deriving DecidableEq

namespace Cmd

/-- The loop of the constructor: `m_parts[i] = part; i++; if (i >= m_numParts)
break;` for each `part` of the initializer list. -/
def ctorLoop (m_numParts : Nat) : List Token → Nat → List Token → Except Fault (List Token)
  | [], _, m_parts => .ok m_parts
  | part :: rest, i, m_parts =>
    match arrayStore m_parts i part .partsIndex with
    | .error e => .error e
    | .ok m_parts' =>
      if i + 1 ≥ m_numParts then .ok m_parts'
      else ctorLoop m_numParts rest (i + 1) m_parts'

/-- The constructor `Cmd::Cmd(std::initializer_list<Token> parts, Callback
callback)`. -/
def new (parts : List Token) : Except Fault Cmd :=
  let c : Cmd := { m_numParts := parts.length }
  match ctorLoop c.m_numParts parts 0 c.m_parts with
  | .ok m_parts => .ok { c with m_parts := m_parts }
  | .error e => .error e

/-- First inner loop of `tryRun`: move across the current word. -/
def skipWord : List Char → List Char
  | [] => []
  | c :: cs => if !isspace c then skipWord cs else c :: cs

/-- Second inner loop of `tryRun`: move to the next word. -/
def skipSpaces : List Char → List Char
  | [] => []
  | c :: cs => if isspace c then skipSpaces cs else c :: cs

/-- The two inner loops of `tryRun` in sequence. -/
def advance (input : List Char) : List Char := skipSpaces (skipWord input)

variable {F : Type}

/-- The `for (const auto &part : m_parts)` loop of `tryRun` and what follows
it, over the parts still to visit. -/
def tryRunLoop (atof : List Char → F) :
    List Token → Option (List Char) → Arguments F → Nat → Except Fault (RunResult F)
  | [], _, arguments, _ => .ok { returned := true, calls := [arguments] }
  | part :: rest, input, arguments, args_found =>
    if part.isEmpty then .ok { returned := true, calls := [arguments] }
    else
      match part.parse atof input with
      | .error e => .error e
      | .ok result =>
        match result.getType with
        | .fail => .ok { returned := false, calls := [] }
        | .integer =>
          match arrayStore arguments args_found result .argsIndex with
          | .error e => .error e
          | .ok arguments' =>
            tryRunLoop atof rest (input.map advance) arguments' (args_found + 1)
        | .decimal =>
          match arrayStore arguments args_found result .argsIndex with
          | .error e => .error e
          | .ok arguments' =>
            tryRunLoop atof rest (input.map advance) arguments' (args_found + 1)
        | .word =>
          match arrayStore arguments args_found result .argsIndex with
          | .error e => .error e
          | .ok arguments' =>
            tryRunLoop atof rest (input.map advance) arguments' (args_found + 1)

/-- The function `Cmd::tryRun(input)`. -/
def tryRun (atof : List Char → F) (c : Cmd) (input : Option (List Char)) :
    Except Fault (RunResult F) :=
  tryRunLoop atof c.m_parts input (Arguments.init F) 0

end Cmd

/-! ## Notions the specification uses -/

/-- The list is the content of a C string: it holds no NUL. -/
def IsCStr (s : List Char) : Prop := NUL ∉ s

instance (s : List Char) : Decidable (IsCStr s) := by
  unfold IsCStr; infer_instance

/-- The suffix of `s` that starts at its `i`-th white-space-delimited word
(counted from 0), or the end of `s` when it has no such word. -/
def wordSuffix (s : List Char) : Nat → List Char
  | 0 => s.dropWhile isspace
  | i + 1 => ((wordSuffix s i).dropWhile fun c => !isspace c).dropWhile isspace

/-- The string `s` has at least `n` white-space-delimited words. -/
def HasWords (s : List Char) (n : Nat) : Prop := ∀ i, i < n → wordSuffix s i ≠ []

/-- The input does not start with a white-space character. -/
def NoLeadingSpace (s : List Char) : Prop := ∀ ch, s.head? = some ch → isspace ch = false

instance (s : List Char) : Decidable (NoLeadingSpace s) := by
  unfold NoLeadingSpace
  cases s with
  | nil => exact isTrue (by simp)
  | cons c cs =>
    by_cases h : isspace c = false
    · exact isTrue (by simpa using h)
    · exact isFalse (by simpa using h)

/-- The leading run of `w` without a space character. -/
def leadingRun (w : List Char) : List Char := w.takeWhile fun c => c ≠ ' '

/-- The decimal rendering of an integer: a minus sign for a negative number,
then the digits without leading zeros. -/
def decimalRendering : Int → List Char
  | .ofNat m => Nat.toDigits 10 m
  | .negSucc m => '-' :: Nat.toDigits 10 (m + 1)

/-- A stand-in for `atof` used where a concrete one is needed: the text of
the field a conversion reads from (leading white space dropped, up to the
next white space). -/
def atofField (s : List Char) : List Char :=
  (s.dropWhile isspace).takeWhile fun c => !isspace c

/-- The cursor of `tryRun` at the start of iteration `i` of its loop: the
input pointer after `i` rounds of the two inner loops. -/
def cursorAt (input : Option (List Char)) (i : Nat) : Option (List Char) :=
  input.map fun s => Cmd.advance^[i] s

/-- The loop reaches part `i` and its parse there returns `fail`: every part
before it is non-empty and parsed to an Argument other than `fail`. -/
def FailsAt {F : Type} (atof : List Char → F) (parts : List Token) (input : Option (List Char)) (i : Nat) : Prop :=
  (∀ j, j < i → ∃ t a, parts[j]? = some t ∧ t.isEmpty = false ∧
      t.parse atof (cursorAt input j) = .ok a ∧ a.getType ≠ .fail) ∧
  ∃ t a, parts[i]? = some t ∧ t.isEmpty = false ∧
      t.parse atof (cursorAt input i) = .ok a ∧ a.getType = .fail

/-- The Argument `word(txt)`: type `word`, the `text` array holding `txt`
followed by NUL bytes. -/
def Argument.ofWord {F : Type} (txt : List Char) : Argument F :=
  { m_type := .word,
    m_value := .text (txt ++ List.replicate (CLI_ARG_MAX_TEXT_LEN - txt.length) NUL) }

/-- The string holds a character that is not white space. -/
def HasNonSpace (u : List Char) : Prop := ∃ ch, ch ∈ u ∧ isspace ch = false

/-- What the dispatch needs of the C library's `atof`: a conversion reads no
further than the white space that ends the first word, so text appended after a
space leaves its value unchanged. -/
def AtofStopsAtSpace {F : Type} (atof : List Char → F) : Prop :=
  ∀ u e : List Char, HasNonSpace u → atof (u ++ ' ' :: e) = atof u

/-- The tokens `Token(s)` of a schema given by its strings. -/
def schema (strs : List String) : List Token :=
  strs.map fun s => Token.ofStr s.toList

/-- The loop of `Token::cmp` from index `i` with `n` iterations left: its
result, and the indices at which `str` was read, in order.  Each iteration
reads `m_str[i]` and `str[i]` and returns false when they differ. -/
def cmpLoop (m s : List Char) : Nat → Nat → Bool × List Nat
  | _, 0 => (true, [])
  | i, n + 1 =>
    if m.getD i NUL ≠ s.getD i NUL then (false, [i])
    else ((cmpLoop m s (i + 1) n).1, i :: (cmpLoop m s (i + 1) n).2)

/-- The indices of `str` that `Token::cmp` reads, in order. -/
def Token.cmpReads (t : Token) (str : Option (List Char)) : List Nat :=
  match t.m_str, str with
  | some m, some s => if t.len = 0 then [] else (cmpLoop m s 0 t.len).2
  | _, _ => []

/-- The word has no leading numeric prefix: after optional leading white space
and an optional sign there is no digit. -/
def NoNumericPrefix (w : List Char) : Prop :=
  ∀ c, (match w.dropWhile isspace with
        | [] => []
        | x :: t => if x = '-' ∨ x = '+' then t else x :: t).head? = some c →
    isdigit c = false

/-- The white-space-delimited word at the start of `u`: the characters the
first inner loop of `tryRun` moves across. -/
def currentWord (u : List Char) : List Char := u.takeWhile fun c => !isspace c

/-! ## Token classification -/

/-- The four cases of `Token::parseType`. -/
theorem parseType_cases (s : List Char) :
    (Token.parseType s = .argString ↔ s = "?s".toList) ∧
    (Token.parseType s = .argInteger ↔ s = "?i".toList) ∧
    (Token.parseType s = .argDecimal ↔ s = "?f".toList) ∧
    (Token.parseType s = .subcommand ↔
      (s ≠ "?s".toList ∧ s ≠ "?i".toList ∧ s ≠ "?f".toList)) := by
  unfold Token.parseType
  split_ifs with a b c
  · subst a; decide
  · subst b; decide
  · subst c; decide
  · simp [Ne.symm a, Ne.symm b, Ne.symm c, eq_comm]
    exact ⟨fun h => a h.symm, fun h => b h.symm, fun h => c h.symm,
      fun h => a h.symm, fun h => b h.symm, fun h => c h.symm⟩

/-- C4: `Token(s).getSchemaType()` is `argString` exactly for `"?s"`,
`argInteger` exactly for `"?i"`, `argDecimal` exactly for `"?f"` and
`subcommand` for every other string, the empty one included; `Token(s).len()`
is the length of `s`. -/
theorem token_classification (s : List Char) :
    ((Token.ofStr s).getSchemaType = .argString ↔ s = "?s".toList) ∧
    ((Token.ofStr s).getSchemaType = .argInteger ↔ s = "?i".toList) ∧
    ((Token.ofStr s).getSchemaType = .argDecimal ↔ s = "?f".toList) ∧
    ((Token.ofStr s).getSchemaType = .subcommand ↔
      (s ≠ "?s".toList ∧ s ≠ "?i".toList ∧ s ≠ "?f".toList)) ∧
    (Token.ofStr ([] : List Char)).getSchemaType = .subcommand ∧
    (Token.ofStr s).len = s.length :=
  ⟨(parseType_cases s).1, (parseType_cases s).2.1, (parseType_cases s).2.2.1,
    (parseType_cases s).2.2.2, by decide, rfl⟩

/-! ## Stores outside the fixed-size arrays -/

/-- C9: the constructor run on the five tokens `a b c d e` stores `e` at
`m_parts[4]`, outside the array of `CLI_MAX_CMD_PARTS` tokens; no command
holding the first four tokens is built. -/
theorem ctor_five_tokens_overruns :
    Cmd.new (schema ["a", "b", "c", "d", "e"]) = .error .partsIndex ∧
    Cmd.ctorLoop 5 (schema ["e"]) 4 (schema ["a", "b", "c", "d"]) = .error .partsIndex := by
  decide

/-- C6: `Argument::text` on a word of 17 characters makes `strncpy` store 17
bytes into the 16-byte `text` array, and on a word of 16 characters it fills
the array without a terminator, so the stored text is not a string that ends
inside the array. -/
theorem text_overruns_buffer :
    (Argument.text (List.replicate 17 'a') : Except Fault (Argument Unit))
      = .error .textOverflow ∧
    strcspn (List.replicate 17 'a') [' '] = 17 ∧
    ((Argument.text (List.replicate 16 'a') : Except Fault (Argument Unit)).toOption.map
      Argument.getText) = some none := by
  decide

/-- C5: `Token("?s").parse` on a word of 17 characters does not return a
truncated word: the copy runs past the end of the `text` array. -/
theorem string_placeholder_overruns :
    (Token.ofStr "?s".toList).parse atofField (some "abcdefghijklmnopq rest".toList)
      = .error .textOverflow := by
  decide

/-- C3: the literal token `a` matches the 17-character word `aaaaaaaaaaaaaaaaa`
(its first byte is `a`), and `parse` then copies the whole word past the end of
the `text` array instead of returning a word Argument. -/
theorem literal_match_overruns :
    (Token.ofStr "a".toList).cmp (some (List.replicate 17 'a')) = true ∧
    (Token.ofStr "a".toList).parse atofField (some (List.replicate 17 'a'))
      = .error .textOverflow := by
  decide

/-! ## The inner loops and the words of the input -/

theorem skipWord_eq_dropWhile (s : List Char) :
    Cmd.skipWord s = s.dropWhile fun c => !isspace c := by
  induction s with
  | nil => rfl
  | cons c cs ih =>
    by_cases h : isspace c = true
    · simp [Cmd.skipWord, List.dropWhile, h]
    · simp [Cmd.skipWord, List.dropWhile, h, ih]

theorem skipSpaces_eq_dropWhile (s : List Char) :
    Cmd.skipSpaces s = s.dropWhile isspace := by
  induction s with
  | nil => rfl
  | cons c cs ih =>
    by_cases h : isspace c = true
    · simp [Cmd.skipSpaces, List.dropWhile, h, ih]
    · simp [Cmd.skipSpaces, List.dropWhile, h]

theorem advance_wordSuffix (s : List Char) (i : Nat) :
    Cmd.advance (wordSuffix s i) = wordSuffix s (i + 1) := by
  simp [Cmd.advance, wordSuffix, skipWord_eq_dropWhile, skipSpaces_eq_dropWhile]

theorem iterate_advance_skipSpaces (s : List Char) (i : Nat) :
    Cmd.advance^[i] (Cmd.skipSpaces s) = wordSuffix s i := by
  induction i with
  | zero => simp [wordSuffix, skipSpaces_eq_dropWhile]
  | succ i ih => rw [Function.iterate_succ_apply', ih, advance_wordSuffix]

theorem skipSpaces_of_noLeadingSpace (s : List Char) (h : NoLeadingSpace s) :
    Cmd.skipSpaces s = s := by
  cases s with
  | nil => rfl
  | cons c cs =>
    have hc : isspace c = false := h c rfl
    simp [Cmd.skipSpaces, hc]

theorem iterate_advance_eq_wordSuffix (s : List Char) (h : NoLeadingSpace s) (i : Nat) :
    Cmd.advance^[i] s = wordSuffix s i := by
  have := iterate_advance_skipSpaces s i
  rwa [skipSpaces_of_noLeadingSpace s h] at this

theorem cursorAt_succ (input : Option (List Char)) (j : Nat) :
    cursorAt (input.map Cmd.advance) j = cursorAt input (j + 1) := by
  cases input with
  | none => rfl
  | some s => simp [cursorAt, Function.iterate_succ_apply]

theorem cursorAt_zero (input : Option (List Char)) : cursorAt input 0 = input := by
  cases input <;> simp [cursorAt]

/-! ## One iteration of the loop of `tryRun` -/

section Loop

variable {F : Type} (atof : List Char → F)

theorem tryRunLoop_empty (part : Token) (rest : List Token) (input : Option (List Char))
    (args : Arguments F) (k : Nat) (he : part.isEmpty = true) :
    Cmd.tryRunLoop atof (part :: rest) input args k = .ok { returned := true, calls := [args] } := by
  simp [Cmd.tryRunLoop, he]

theorem tryRunLoop_error (part : Token) (rest : List Token) (input : Option (List Char))
    (args : Arguments F) (k : Nat) (e : Fault) (he : part.isEmpty = false)
    (hp : part.parse atof input = .error e) :
    Cmd.tryRunLoop atof (part :: rest) input args k = .error e := by
  simp [Cmd.tryRunLoop, he, hp]

theorem tryRunLoop_fail (part : Token) (rest : List Token) (input : Option (List Char))
    (args : Arguments F) (k : Nat) (a : Argument F) (he : part.isEmpty = false)
    (hp : part.parse atof input = .ok a) (hf : a.getType = .fail) :
    Cmd.tryRunLoop atof (part :: rest) input args k = .ok { returned := false, calls := [] } := by
  simp [Cmd.tryRunLoop, he, hp, hf]

theorem tryRunLoop_step (part : Token) (rest : List Token) (input : Option (List Char))
    (args : Arguments F) (k : Nat) (a : Argument F) (he : part.isEmpty = false)
    (hp : part.parse atof input = .ok a) (hf : a.getType ≠ .fail) (hk : k < args.length) :
    Cmd.tryRunLoop atof (part :: rest) input args k
      = Cmd.tryRunLoop atof rest (input.map Cmd.advance) (args.set k a) (k + 1) := by
  cases hty : a.getType with
  | fail => exact absurd hty hf
  | word => simp [Cmd.tryRunLoop, he, hp, hty, arrayStore, hk]
  | integer => simp [Cmd.tryRunLoop, he, hp, hty, arrayStore, hk]
  | decimal => simp [Cmd.tryRunLoop, he, hp, hty, arrayStore, hk]

theorem failsAt_cons_succ (part : Token) (rest : List Token) (input : Option (List Char))
    (a : Argument F) (he : part.isEmpty = false) (hp : part.parse atof input = .ok a)
    (hf : a.getType ≠ .fail) (i : Nat) :
    FailsAt atof (part :: rest) input (i + 1) ↔ FailsAt atof rest (input.map Cmd.advance) i := by
  unfold FailsAt
  constructor
  · rintro ⟨h1, h2⟩
    refine ⟨fun j hj => ?_, ?_⟩
    · have := h1 (j + 1) (by omega)
      simpa [cursorAt_succ] using this
    · simpa [cursorAt_succ] using h2
  · rintro ⟨h1, h2⟩
    refine ⟨fun j hj => ?_, ?_⟩
    · cases j with
      | zero => exact ⟨part, a, by simp, he, by simpa [cursorAt_zero] using hp, hf⟩
      | succ j =>
        have := h1 j (by omega)
        simpa [cursorAt_succ] using this
    · simpa [cursorAt_succ] using h2

/-- The loop returns false without a call of the handler exactly when it
reaches a part whose parse returns `fail`. -/
theorem tryRunLoop_false_iff (parts : List Token) :
    ∀ (input : Option (List Char)) (args : Arguments F) (k : Nat),
      parts.length + k ≤ args.length →
      (Cmd.tryRunLoop atof parts input args k = .ok { returned := false, calls := [] } ↔
        ∃ i, FailsAt atof parts input i) := by
  induction parts with
  | nil =>
    intro input args k _
    simp [Cmd.tryRunLoop, FailsAt]
  | cons part rest ih =>
    intro input args k hk
    by_cases he : part.isEmpty = true
    · rw [tryRunLoop_empty atof part rest input args k he]
      simp only [Except.ok.injEq, RunResult.mk.injEq, Bool.true_eq_false, false_and, false_iff]
      rintro ⟨i, h1, t, a, ht, hne, _⟩
      cases i with
      | zero =>
        have : t = part := by simpa using ht.symm
        subst this; simp [he] at hne
      | succ i =>
        obtain ⟨t0, a0, ht0, hne0, _⟩ := h1 0 (by omega)
        have : t0 = part := by simpa using ht0.symm
        subst this; simp [he] at hne0
    · have he : part.isEmpty = false := by simpa using he
      cases hp : part.parse atof input with
      | error e =>
        rw [tryRunLoop_error atof part rest input args k e he hp]
        simp only [false_iff, reduceCtorEq]
        rintro ⟨i, h1, t, a, ht, _, hpa, _⟩
        cases i with
        | zero =>
          have : t = part := by simpa using ht.symm
          subst this; rw [cursorAt_zero, hp] at hpa; cases hpa
        | succ i =>
          obtain ⟨t0, a0, ht0, _, hp0, _⟩ := h1 0 (by omega)
          have : t0 = part := by simpa using ht0.symm
          subst this; rw [cursorAt_zero, hp] at hp0; cases hp0
      | ok a =>
        by_cases hf : a.getType = .fail
        · rw [tryRunLoop_fail atof part rest input args k a he hp hf]
          simp only [true_iff]
          exact ⟨0, fun j hj => absurd hj (by omega), part, a, by simp, he,
            by simpa [cursorAt_zero] using hp, hf⟩
        · have hk' : k < args.length := by simp at hk; omega
          rw [tryRunLoop_step atof part rest input args k a he hp hf hk',
            ih (input.map Cmd.advance) (args.set k a) (k + 1) (by simp at hk ⊢; omega)]
          constructor
          · rintro ⟨i, hi⟩
            exact ⟨i + 1, (failsAt_cons_succ atof part rest input a he hp hf i).2 hi⟩
          · rintro ⟨i, hi⟩
            cases i with
            | zero =>
              obtain ⟨_, t, a', ht, _, hpa, hfa⟩ := hi
              have : t = part := by simpa using ht.symm
              subst this; rw [cursorAt_zero, hp] at hpa
              cases hpa; exact absurd hfa hf
            | succ i => exact ⟨i, (failsAt_cons_succ atof part rest input a he hp hf i).1 hi⟩

/-- A run of the loop that returns false has not called the handler. -/
theorem tryRunLoop_false_calls (parts : List Token) :
    ∀ (input : Option (List Char)) (args : Arguments F) (k : Nat) (r : RunResult F),
      Cmd.tryRunLoop atof parts input args k = .ok r → r.returned = false → r.calls = [] := by
  induction parts with
  | nil =>
    intro input args k r h hr
    simp [Cmd.tryRunLoop] at h; subst h; simp at hr
  | cons part rest ih =>
    intro input args k r h hr
    by_cases he : part.isEmpty = true
    · rw [tryRunLoop_empty atof part rest input args k he] at h
      simp at h; subst h; simp at hr
    · have he : part.isEmpty = false := by simpa using he
      cases hp : part.parse atof input with
      | error e =>
        rw [tryRunLoop_error atof part rest input args k e he hp] at h; cases h
      | ok a =>
        by_cases hf : a.getType = .fail
        · rw [tryRunLoop_fail atof part rest input args k a he hp hf] at h
          simp at h; subst h; rfl
        · by_cases hk : k < args.length
          · rw [tryRunLoop_step atof part rest input args k a he hp hf hk] at h
            exact ih _ _ _ r h hr
          · cases hty : a.getType with
            | fail => exact absurd hty hf
            | word => simp [Cmd.tryRunLoop, he, hp, hty, arrayStore, hk] at h
            | integer => simp [Cmd.tryRunLoop, he, hp, hty, arrayStore, hk] at h
            | decimal => simp [Cmd.tryRunLoop, he, hp, hty, arrayStore, hk] at h

/-- A run of the loop that returns true has called the handler once, with an
array that holds, from slot `k` on, the Arguments parsed for the leading
non-empty parts and is otherwise the array the loop started from. -/
theorem tryRunLoop_true (parts : List Token) :
    ∀ (input : Option (List Char)) (args : Arguments F) (k : Nat) (r : RunResult F),
      parts.length + k ≤ args.length →
      Cmd.tryRunLoop atof parts input args k = .ok r → r.returned = true →
      ∃ A, r.calls = [A] ∧ A.length = args.length ∧ (∀ j, j < k → A[j]? = args[j]?) ∧
        ∃ m, m ≤ parts.length ∧ (∀ j, k + m ≤ j → A[j]? = args[j]?) ∧
          (∀ j, j < m → ∃ t a, parts[j]? = some t ∧ t.isEmpty = false ∧
            t.parse atof (cursorAt input j) = .ok a ∧ a.getType ≠ .fail ∧
            A[k + j]? = some a) ∧
          (m = parts.length ∨ ∃ t, parts[m]? = some t ∧ t.isEmpty = true) := by
  induction parts with
  | nil =>
    intro input args k r _ h _
    simp [Cmd.tryRunLoop] at h; subst h
    exact ⟨args, rfl, rfl, fun _ _ => rfl, 0, le_refl _, fun _ _ => rfl,
      fun j hj => absurd hj (by omega), Or.inl rfl⟩
  | cons part rest ih =>
    intro input args k r hlen h hr
    by_cases he : part.isEmpty = true
    · rw [tryRunLoop_empty atof part rest input args k he] at h
      simp at h; subst h
      exact ⟨args, rfl, rfl, fun _ _ => rfl, 0, Nat.zero_le _, fun _ _ => rfl,
        fun j hj => absurd hj (by omega), Or.inr ⟨part, by simp, he⟩⟩
    · have he : part.isEmpty = false := by simpa using he
      cases hp : part.parse atof input with
      | error e =>
        rw [tryRunLoop_error atof part rest input args k e he hp] at h; cases h
      | ok a =>
        by_cases hf : a.getType = .fail
        · rw [tryRunLoop_fail atof part rest input args k a he hp hf] at h
          simp at h; subst h; simp at hr
        · have hk : k < args.length := by simp at hlen; omega
          rw [tryRunLoop_step atof part rest input args k a he hp hf hk] at h
          obtain ⟨A, hA, hAlen, hlow, m, hm, hhigh, hmid, hstop⟩ :=
            ih (input.map Cmd.advance) (args.set k a) (k + 1) r
              (by simp at hlen ⊢; omega) h hr
          have hAk : A[k]? = some a := by
            rw [hlow k (by omega)]; simp [hk]
          refine ⟨A, hA, by simpa using hAlen, fun j hj => ?_, m + 1, by simp; omega,
            fun j hj => ?_, fun j hj => ?_, ?_⟩
          · rw [hlow j (by omega), List.getElem?_set_ne (by omega)]
          · rw [hhigh j (by omega), List.getElem?_set_ne (by omega)]
          · cases j with
            | zero =>
              exact ⟨part, a, by simp, he, by simpa [cursorAt_zero] using hp, hf, by simpa using hAk⟩
            | succ j =>
              obtain ⟨t, b, ht, hte, htp, htf, hAj⟩ := hmid j (by omega)
              refine ⟨t, b, by simpa using ht, hte, by simpa [cursorAt_succ] using htp, htf, ?_⟩
              have : k + (j + 1) = k + 1 + j := by omega
              rw [this]; exact hAj
          · rcases hstop with h1 | ⟨t, ht, hte⟩
            · left; simp [h1]
            · right; exact ⟨t, by simpa using ht, hte⟩

end Loop

/-! ## The constructor -/

/-- The constructor on at most `CLI_MAX_CMD_PARTS` tokens stores them in the
leading slots and leaves the other slots default-constructed. -/
theorem new_of_le (toks : List Token) (h : toks.length ≤ CLI_MAX_CMD_PARTS) :
    Cmd.new toks = .ok
      { m_parts := toks ++ List.replicate (CLI_MAX_CMD_PARTS - toks.length) {},
        m_numParts := toks.length } := by
  rcases toks with _ | ⟨a, _ | ⟨b, _ | ⟨c, _ | ⟨d, _ | ⟨e, tl⟩⟩⟩⟩⟩
  · rfl
  · rfl
  · rfl
  · rfl
  · rfl
  · simp [CLI_MAX_CMD_PARTS] at h

/-- The constructor on more than `CLI_MAX_CMD_PARTS` tokens stores the fifth
one outside `m_parts`. -/
theorem new_of_gt (toks : List Token) (h : CLI_MAX_CMD_PARTS < toks.length) :
    Cmd.new toks = .error .partsIndex := by
  rcases toks with _ | ⟨a, _ | ⟨b, _ | ⟨c, _ | ⟨d, _ | ⟨e, tl⟩⟩⟩⟩⟩
  · simp [CLI_MAX_CMD_PARTS] at h
  · simp [CLI_MAX_CMD_PARTS] at h
  · simp [CLI_MAX_CMD_PARTS] at h
  · simp [CLI_MAX_CMD_PARTS] at h
  · simp [CLI_MAX_CMD_PARTS] at h
  · simp [Cmd.new, Cmd.ctorLoop, arrayStore, CLI_MAX_CMD_PARTS]

/-! ## Literal comparison -/

theorem prefix_of_getD_eq (L : List Char) :
    ∀ w : List Char, IsCStr L → (∀ i, i < L.length → L.getD i NUL = w.getD i NUL) → L <+: w := by
  induction L with
  | nil => intro w _ _; exact List.nil_prefix
  | cons x xs ih =>
    intro w hL h
    have hx : x ≠ NUL := fun e => hL (by simp [e])
    have hxs : IsCStr xs := fun e => hL (List.mem_cons_of_mem _ e)
    cases w with
    | nil =>
      have := h 0 (by simp)
      simp at this
      exact absurd this hx
    | cons y ys =>
      have h0 := h 0 (by simp)
      simp at h0
      subst h0
      have := ih ys hxs (fun i hi => by
        have := h (i + 1) (by simpa using hi)
        simpa using this)
      exact (List.prefix_cons_inj x).2 this

theorem getD_eq_of_prefix (L w : List Char) (h : L <+: w) (i : Nat) (hi : i < L.length) :
    L.getD i NUL = w.getD i NUL := by
  obtain ⟨t, rfl⟩ := h
  simp [List.getD_eq_getElem?_getD, List.getElem?_append_left hi]

/-- The result of `cmp` for a literal token is the prefix test. -/
theorem cmp_ofStr_iff (L w : List Char) (hL : L ≠ []) (hc : IsCStr L) :
    (Token.ofStr L).cmp (some w) = true ↔ L <+: w := by
  have hlen : L.length ≠ 0 := by simpa using hL
  simp only [Token.cmp, Token.ofStr, Token.len, Token.parseLen, strlen, hlen, if_false,
    List.all_eq_true, List.mem_range, beq_iff_eq]
  exact ⟨fun h => prefix_of_getD_eq L w hc h, fun h i hi => getD_eq_of_prefix L w h i hi⟩

/-- The result of `parse` for a non-empty literal token on a non-null word. -/
theorem parse_literal {F : Type} (atof : List Char → F) (L w : List Char) (hL : L ≠ [])
    (hty : Token.parseType L = .subcommand) :
    (Token.ofStr L).parse atof (some w)
      = if (Token.ofStr L).cmp (some w) then Argument.text w else .ok Argument.fail := by
  have hlen : L.length ≠ 0 := by simpa using hL
  simp [Token.parse, Token.ofStr, Token.isEmpty, Token.len, Token.parseLen, strlen, hlen, hty]

/-! ## Dispatch -/

theorem getElem?_parts_of_lt (toks : List Token) (n i : Nat) (t : Token)
    (h : toks[i]? = some t) : (toks ++ List.replicate n ({} : Token))[i]? = some t := by
  have hi : i < toks.length := by
    by_contra hc
    rw [List.getElem?_eq_none (by omega)] at h; cases h
  rw [List.getElem?_append_left hi]; exact h

/-- C1: for a command built from at most `CLI_MAX_CMD_PARTS` non-empty tokens
and an input that does not start with white space, a run that returns true
has invoked the handler exactly once, and slot `i` of the array it received is
what token `i` parses from the suffix of the input at its `i`-th word (the end
of the input when there is no such word). -/
theorem lockstep_dispatch {F : Type} (atof : List Char → F) (toks : List Token)
    (s : List Char) (c : Cmd) (r : RunResult F)
    (hn : toks.length ≤ CLI_MAX_CMD_PARTS) (hne : ∀ t ∈ toks, t.isEmpty = false)
    (hs : NoLeadingSpace s) (hc : Cmd.new toks = .ok c)
    (hr : Cmd.tryRun atof c (some s) = .ok r) (ht : r.returned = true) :
    ∃ A, r.calls = [A] ∧ ∀ (i : Nat) (t : Token), toks[i]? = some t →
      ∃ a, A[i]? = some a ∧ t.parse atof (some (wordSuffix s i)) = .ok a := by
  rw [new_of_le toks hn] at hc
  cases hc
  unfold Cmd.tryRun at hr
  obtain ⟨A, hA, _, _, m, _, _, hmid, hstop⟩ :=
    tryRunLoop_true atof _ (some s) (Arguments.init F) 0 r
      (by simp [Arguments.init]; omega) hr ht
  have hm : toks.length ≤ m := by
    rcases hstop with h | ⟨t, ht, hte⟩
    · rw [h]; simp
    · by_contra hlt
      have hlt : m < toks.length := by omega
      rw [List.getElem?_append_left hlt] at ht
      have := hne t (List.mem_iff_getElem?.2 ⟨m, ht⟩)
      rw [this] at hte; cases hte
  refine ⟨A, hA, fun i t hit => ?_⟩
  have hi : i < toks.length := by
    by_contra hcon
    rw [List.getElem?_eq_none (by omega)] at hit; cases hit
  obtain ⟨t', a, ht', _, hp, _, hAi⟩ := hmid i (by omega)
  rw [getElem?_parts_of_lt toks _ i t hit] at ht'
  cases ht'
  refine ⟨a, by simpa using hAi, ?_⟩
  simpa [cursorAt, iterate_advance_eq_wordSuffix s hs i] using hp

/-- C1, on the schema `set ?i ?f` and the input `set 3 2.5`: the run returns
true and the handler receives `word("set")`, `integer(3)` and the decimal read
from `2.5`. -/
theorem lockstep_dispatch_witness :
    Cmd.tryRun atofField
        { m_parts := schema ["set", "?i", "?f"] ++ [{}], m_numParts := 3 }
        (some "set 3 2.5".toList)
      = .ok { returned := true,
              calls := [[Argument.ofWord "set".toList, Argument.integer 3,
                Argument.decimal (atofField "2.5".toList), Argument.fail]] } ∧
    ∃ A, [[Argument.ofWord "set".toList, Argument.integer 3,
          Argument.decimal (atofField "2.5".toList), (Argument.fail : Argument (List Char))]] = [A] ∧
      ∀ (i : Nat) (t : Token), (schema ["set", "?i", "?f"])[i]? = some t →
        ∃ a, A[i]? = some a ∧
          t.parse atofField (some (wordSuffix "set 3 2.5".toList i)) = .ok a :=
  ⟨by decide,
   lockstep_dispatch atofField (schema ["set", "?i", "?f"]) "set 3 2.5".toList
    { m_parts := schema ["set", "?i", "?f"] ++ [{}], m_numParts := 3 }
    { returned := true,
      calls := [[Argument.ofWord "set".toList, Argument.integer 3,
        Argument.decimal (atofField "2.5".toList), Argument.fail]] }
    (by decide) (by decide) (by decide) (by decide) (by decide) rfl⟩

/-- C2: `tryRun` returns false exactly when its loop reaches a non-empty
token whose parse at the cursor returns an Argument of type `fail`; a run that
returns false has not invoked the handler; and when the first token is a
non-empty literal `L` that the input does not start with, `tryRun` returns
false without invoking the handler. -/
theorem match_failure {F : Type} (atof : List Char → F) (c : Cmd)
    (input : Option (List Char)) (hc : c.m_parts.length = CLI_MAX_CMD_PARTS) :
    ((∃ r, Cmd.tryRun atof c input = .ok r ∧ r.returned = false) ↔
      ∃ i, FailsAt atof c.m_parts input i) ∧
    (∀ r, Cmd.tryRun atof c input = .ok r → r.returned = false → r.calls = []) ∧
    (∀ (L : List Char) (rest : List Token), c.m_parts = Token.ofStr L :: rest →
      L ≠ [] → IsCStr L → Token.parseType L = .subcommand →
      (∀ w, input = some w → ¬ L <+: w) →
      Cmd.tryRun atof c input = .ok { returned := false, calls := [] }) := by
  have hlen : c.m_parts.length + 0 ≤ (Arguments.init F).length := by
    simp [Arguments.init, hc]
  have hcalls : ∀ r, Cmd.tryRun atof c input = .ok r → r.returned = false → r.calls = [] :=
    fun r h hr => tryRunLoop_false_calls atof c.m_parts input _ 0 r h hr
  refine ⟨?_, hcalls, ?_⟩
  · rw [← tryRunLoop_false_iff atof c.m_parts input (Arguments.init F) 0 hlen]
    constructor
    · rintro ⟨r, h, hr⟩
      have := hcalls r h hr
      obtain ⟨ret, calls⟩ := r
      simp only at hr this
      subst hr; subst this
      exact h
    · intro h
      exact ⟨_, h, rfl⟩
  · intro L rest hparts hL hcstr hty hw
    have he : (Token.ofStr L).isEmpty = false := rfl
    have hp : (Token.ofStr L).parse atof input = .ok Argument.fail := by
      cases input with
      | none =>
        have hlen : L.length ≠ 0 := by simpa using hL
        simp [Token.parse, Token.ofStr, Token.isEmpty, Token.len, Token.parseLen, strlen, hlen]
      | some w =>
        have hcmp : (Token.ofStr L).cmp (some w) = false := by
          have := (cmp_ofStr_iff L w hL hcstr).not.2 (hw w rfl)
          simpa using this
        rw [parse_literal atof L w hL hty, hcmp]; rfl
    unfold Cmd.tryRun
    rw [hparts]
    exact tryRunLoop_fail atof _ rest input _ 0 _ he hp rfl

/-- C2, on the schema `set ?i` and the input `get 3`: `tryRun` returns false
and the handler is not invoked. -/
theorem match_failure_witness :
    Cmd.tryRun atofField { m_parts := schema ["set", "?i"] ++ [{}, {}], m_numParts := 2 }
        (some "get 3".toList)
      = .ok { returned := false, calls := [] } :=
  (match_failure atofField { m_parts := schema ["set", "?i"] ++ [{}, {}], m_numParts := 2 }
    (some "get 3".toList) (by decide)).2.2 "set".toList (schema ["?i"] ++ [({} : Token), {}])
    (by decide) (by decide) (by decide) (by decide)
    (by intro w hw; cases hw; decide)

/-! ## `Argument::text` -/

theorem strcspn_space (w : List Char) : strcspn w [' '] = (leadingRun w).length := by
  induction w with
  | nil => rfl
  | cons c cs ih =>
    by_cases h : c = ' '
    · simp [strcspn, leadingRun, h]
    · simp [strcspn, leadingRun, h, List.takeWhile_cons] at ih ⊢
      exact ih

theorem take_strcspn_space (w : List Char) : w.take (strcspn w [' ']) = leadingRun w := by
  induction w with
  | nil => rfl
  | cons c cs ih =>
    by_cases h : c = ' '
    · simp [strcspn, leadingRun, h]
    · simp [strcspn, leadingRun, h, List.takeWhile_cons] at ih ⊢
      exact ih

theorem leadingRun_length_le (w : List Char) : (leadingRun w).length ≤ w.length := by
  unfold leadingRun
  exact (List.takeWhile_sublist _).length_le

/-- The result of `Argument::text` when the leading run fits into the `text` array. -/
theorem text_of_le {F : Type} (w : List Char)
    (h : (leadingRun w).length ≤ CLI_ARG_MAX_TEXT_LEN) :
    (Argument.text w : Except Fault (Argument F)) = .ok (Argument.ofWord (leadingRun w)) := by
  have h2 : (leadingRun w).length - w.length = 0 := by
    have := leadingRun_length_le w; omega
  have h3 : List.take (leadingRun w).length w = leadingRun w := by
    rw [← strcspn_space, take_strcspn_space]
  simp only [Argument.text, Argument.textBuf, Result.zero, strncpy, List.length_replicate,
    strcspn_space, h, if_true, h2, h3, List.replicate_zero, List.append_nil,
    List.drop_replicate, Argument.ofWord]

/-- The result of `Argument::text` when the leading run is longer than the `text` array. -/
theorem text_of_gt {F : Type} (w : List Char)
    (h : CLI_ARG_MAX_TEXT_LEN < (leadingRun w).length) :
    (Argument.text w : Except Fault (Argument F)) = .error .textOverflow := by
  have h1 : ¬ (leadingRun w).length ≤ CLI_ARG_MAX_TEXT_LEN := by omega
  simp only [Argument.text, Argument.textBuf, Result.zero, strncpy, List.length_replicate,
    strcspn_space, h1, if_false]

theorem takeWhile_append_cons_stop {α : Type} (p : α → Bool) (l t : List α) (x : α)
    (hl : ∀ y ∈ l, p y = true) (hx : p x = false) :
    (l ++ x :: t).takeWhile p = l := by
  induction l with
  | nil => simp [List.takeWhile, hx]
  | cons y ys ih =>
    have hy : p y = true := hl y (by simp)
    simp [List.takeWhile_cons, hy]
    exact ih (fun z hz => hl z (List.mem_cons_of_mem _ hz))

/-- The text of `word(txt)` reads back as `txt` when it leaves room for the
terminator. -/
theorem getText_ofWord {F : Type} (txt : List Char) (hc : IsCStr txt)
    (h : txt.length < CLI_ARG_MAX_TEXT_LEN) :
    (Argument.ofWord txt : Argument F).getText = some txt := by
  obtain ⟨n, hn⟩ : ∃ n, CLI_ARG_MAX_TEXT_LEN - txt.length = n + 1 :=
    ⟨CLI_ARG_MAX_TEXT_LEN - txt.length - 1, by omega⟩
  have hmem : NUL ∈ txt ++ List.replicate (n + 1) NUL := by simp [List.replicate_succ]
  have htw : (txt ++ List.replicate (n + 1) NUL).takeWhile (fun c => decide (c ≠ NUL)) = txt := by
    rw [List.replicate_succ]
    exact takeWhile_append_cons_stop _ txt _ NUL
      (fun y hy => by
        have : y ≠ NUL := fun e => hc (e ▸ hy)
        simpa using this) (by simp)
  simp only [Argument.getText, Argument.ofWord, Argument.textBuf, hn]
  rw [if_pos hmem]
  exact congrArg some htw

theorem leadingRun_isCStr (w : List Char) (h : IsCStr w) : IsCStr (leadingRun w) :=
  fun hmem => h ((List.takeWhile_sublist _).subset hmem)

theorem leadingRun_append_of_no_space (L t : List Char) (h : ' ' ∉ L) :
    leadingRun (L ++ t) = L ++ leadingRun t := by
  unfold leadingRun
  apply List.takeWhile_append_of_pos
  intro a ha
  have : a ≠ ' ' := fun e => h (e ▸ ha)
  simpa using this

theorem leadingRun_eq_nil_iff (t : List Char) :
    leadingRun t = [] ↔ ∀ ch, t[0]? = some ch → ch = ' ' := by
  cases t with
  | nil => simp [leadingRun]
  | cons c cs =>
    by_cases h : c = ' '
    · simp [leadingRun, h]
    · simp [leadingRun, h, List.takeWhile_cons]

theorem no_space_of_leadingRun_eq (w L : List Char) (h : leadingRun w = L) : ' ' ∉ L := by
  intro hmem
  rw [← h] at hmem
  have := List.mem_takeWhile_imp hmem
  simp at this

/-! ## What a literal token captures -/

/-- C10, as the code has it: when `parse` of a non-empty literal token `L`
succeeds on `w` and the leading run of `w` without a space is shorter than the
`text` array, the text of the returned word is that leading run of `w`; the run
starts with `L` when `L` has no space, and it is `L` itself exactly when `L`
has no space and `w` has a space or ends right after `L`. -/
theorem literal_capture {F : Type} (atof : List Char → F) (L w : List Char) (a : Argument F)
    (hL : L ≠ []) (hLc : IsCStr L) (hwc : IsCStr w)
    (hty : Token.parseType L = .subcommand)
    (hp : (Token.ofStr L).parse atof (some w) = .ok a) (ha : a.getType = .word)
    (hrun : (leadingRun w).length < CLI_ARG_MAX_TEXT_LEN) :
    a.getText = some (leadingRun w) ∧
    (' ' ∉ L → L <+: leadingRun w) ∧
    (leadingRun w = L ↔ (' ' ∉ L ∧ ∀ ch, w[L.length]? = some ch → ch = ' ')) := by
  rw [parse_literal atof L w hL hty] at hp
  by_cases hcmp : (Token.ofStr L).cmp (some w) = true
  · rw [if_pos hcmp, text_of_le w (le_of_lt hrun)] at hp
    cases hp
    obtain ⟨t, rfl⟩ := (cmp_ofStr_iff L w hL hLc).1 hcmp
    have hidx : ∀ ch, (L ++ t)[L.length]? = some ch ↔ t[0]? = some ch := by
      intro ch
      rw [List.getElem?_append_right (le_refl _)]; simp
    refine ⟨getText_ofWord _ (leadingRun_isCStr _ hwc) hrun, fun hs => ?_, ?_⟩
    · rw [leadingRun_append_of_no_space L t hs]; exact List.prefix_append _ _
    · constructor
      · intro h
        have hs := no_space_of_leadingRun_eq _ _ h
        rw [leadingRun_append_of_no_space L t hs] at h
        have ht : leadingRun t = [] := by simpa using h
        exact ⟨hs, fun ch hch => (leadingRun_eq_nil_iff t).1 ht ch ((hidx ch).1 hch)⟩
      · rintro ⟨hs, h⟩
        rw [leadingRun_append_of_no_space L t hs]
        have : leadingRun t = [] :=
          (leadingRun_eq_nil_iff t).2 (fun ch hch => h ch ((hidx ch).2 hch))
        simp [this]
  · have hcmp : (Token.ofStr L).cmp (some w) = false := by simpa using hcmp
    rw [hcmp] at hp
    simp at hp
    subst hp
    cases ha

/-- C10 at the literal `set` and the input `set 3`: the captured text is
`set`. -/
theorem literal_capture_witness :
    (Argument.ofWord "set".toList : Argument (List Char)).getText = some (leadingRun "set 3".toList) ∧
    (' ' ∉ "set".toList → "set".toList <+: leadingRun "set 3".toList) ∧
    (leadingRun "set 3".toList = "set".toList ↔
      (' ' ∉ "set".toList ∧ ∀ ch, "set 3".toList["set".toList.length]? = some ch → ch = ' ')) :=
  literal_capture atofField "set".toList "set 3".toList (Argument.ofWord "set".toList)
    (by decide) (by decide) (by decide) (by decide) (by decide) (by decide) (by decide)

/-- C10 fails as stated: the literal token `se` parses the input `set 3`
successfully, and the text of the returned word is `set`, not `se`. -/
theorem literal_capture_counterexample :
    ∃ a : Argument (List Char),
      (Token.ofStr "se".toList).parse atofField (some "set 3".toList) = .ok a ∧
      a.getType = .word ∧ a.getText = some "set".toList ∧ a.getText ≠ some "se".toList :=
  ⟨Argument.ofWord "set".toList, by decide, by decide, by decide, by decide⟩

/-! ## `atoi` on a decimal rendering -/

theorem digitChar_spec (d : Nat) (h : d < 10) :
    isdigit (Nat.digitChar d) = true ∧ (Nat.digitChar d).toNat - 48 = d := by
  interval_cases d <;> decide

theorem digitsVal_toDigitsCore (fuel : Nat) :
    ∀ (n : Nat) (acc : List Char), n < fuel →
      digitsVal 0 (Nat.toDigitsCore 10 fuel n acc) = digitsVal n acc := by
  induction fuel with
  | zero => intro n acc h; omega
  | succ fuel ih =>
    intro n acc h
    have hd := digitChar_spec (n % 10) (Nat.mod_lt _ (by decide))
    unfold Nat.toDigitsCore
    by_cases h0 : n / 10 = 0
    · have hn : n % 10 = n := Nat.mod_eq_of_lt (by omega)
      rw [hn] at hd
      simp only [h0, if_true, digitsVal, hn, hd.1, hd.2, Nat.zero_mul, Nat.zero_add]
    · simp only [h0, if_false]
      rw [ih (n / 10) _ (by omega)]
      simp only [digitsVal, hd.1, if_true, hd.2]
      congr 1
      omega

theorem digitsVal_toDigits (n : Nat) : digitsVal 0 (Nat.toDigits 10 n) = n := by
  unfold Nat.toDigits
  rw [digitsVal_toDigitsCore (n + 1) n [] (by omega)]
  rfl

theorem head_toDigitsCore (fuel : Nat) :
    ∀ (n : Nat) (acc : List Char), n < fuel →
      ∃ c cs, Nat.toDigitsCore 10 fuel n acc = c :: cs ∧ isdigit c = true := by
  induction fuel with
  | zero => intro n acc h; omega
  | succ fuel ih =>
    intro n acc h
    have hd := digitChar_spec (n % 10) (Nat.mod_lt _ (by decide))
    unfold Nat.toDigitsCore
    by_cases h0 : n / 10 = 0
    · simp only [h0, if_true]
      exact ⟨_, _, rfl, hd.1⟩
    · simp only [h0, if_false]
      exact ih (n / 10) _ (by omega)

theorem isspace_false_of_isdigit (c : Char) (h : isdigit c = true) : isspace c = false := by
  simp only [isdigit, isspace, Bool.and_eq_true, decide_eq_true_eq] at h ⊢
  simp only [Bool.or_eq_false_iff, Bool.and_eq_false_iff, decide_eq_false_iff_not]
  omega

theorem ne_sign_of_isdigit (c : Char) (h : isdigit c = true) : c ≠ '-' ∧ c ≠ '+' := by
  constructor <;> (rintro rfl; revert h; decide)

/-- The value of `atoi` on a string that starts with a digit is that of its digits. -/
theorem atoi_of_digit (c : Char) (cs : List Char) (h : isdigit c = true) :
    atoi (c :: cs) = wrapInt32 (digitsVal 0 (c :: cs)) := by
  have h1 := isspace_false_of_isdigit c h
  have h2 := ne_sign_of_isdigit c h
  simp [atoi, h1, h2.1, h2.2]

theorem wrapInt32_of_range (z : Int) (h1 : -2 ^ 31 ≤ z) (h2 : z < 2 ^ 31) : wrapInt32 z = z := by
  unfold wrapInt32
  rw [Int.emod_eq_of_lt (by omega) (by omega)]
  omega

/-- The function `atoi` reads back the decimal rendering of a 32-bit integer. -/
theorem atoi_decimalRendering (n : Int) (h1 : -2 ^ 31 ≤ n) (h2 : n < 2 ^ 31) :
    atoi (decimalRendering n) = n := by
  cases n with
  | ofNat m =>
    obtain ⟨c, cs, hcs, hc⟩ := head_toDigitsCore (m + 1) m [] (by omega)
    have hv := digitsVal_toDigits m
    unfold Nat.toDigits at hv
    simp only [decimalRendering, Nat.toDigits]
    rw [hcs] at hv ⊢
    rw [atoi_of_digit c cs hc, hv]
    exact wrapInt32_of_range _ h1 h2
  | negSucc m =>
    have hv := digitsVal_toDigits (m + 1)
    have hsp : isspace '-' = false := by decide
    have e : Int.negSucc m = -(((m + 1 : Nat) : Int)) := rfl
    rw [e] at h1 h2 ⊢
    simp only [decimalRendering, atoi, hsp, if_true, hv]
    simp only [Bool.false_eq_true, if_false]
    exact wrapInt32_of_range _ h1 h2

/-- The result of `parse` for the token `?i` on a non-null word. -/
theorem parse_argInteger {F : Type} (atof : List Char → F) (w : List Char) :
    (Token.ofStr "?i".toList).parse atof (some w) = .ok (Argument.integer (atoi w)) := rfl

/-- C7: for every 32-bit signed integer `n`, the command with schema `?i` run
on the decimal rendering of `n` returns true and invokes the handler once with
an array whose slot 0 has type `integer` and `getInt() = n`. -/
theorem integer_round_trip {F : Type} (atof : List Char → F) (n : Int)
    (h1 : -2 ^ 31 ≤ n) (h2 : n < 2 ^ 31) :
    ∃ (c : Cmd) (A : Arguments F) (a : Argument F),
      Cmd.new (schema ["?i"]) = .ok c ∧
      Cmd.tryRun atof c (some (decimalRendering n)) = .ok { returned := true, calls := [A] } ∧
      A[0]? = some a ∧ a.getType = .integer ∧ a.getInt = n := by
  refine ⟨{ m_parts := schema ["?i"] ++ [{}, {}, {}], m_numParts := 1 },
    (Arguments.init F).set 0 (Argument.integer n), Argument.integer n, rfl, ?_, rfl, rfl, ?_⟩
  · have hp := parse_argInteger atof (decimalRendering n)
    rw [atoi_decimalRendering n h1 h2] at hp
    unfold Cmd.tryRun
    show Cmd.tryRunLoop atof (Token.ofStr "?i".toList :: [{}, {}, {}]) _ _ 0 = _
    rw [tryRunLoop_step atof (Token.ofStr "?i".toList) _ _ _ 0 _ rfl hp
      (by simp [Argument.getType, Argument.integer])
      (by simp [Arguments.init, CLI_MAX_CMD_PARTS])]
    exact tryRunLoop_empty atof {} _ _ _ _ rfl
  · simp [Argument.getInt, Argument.getType, Argument.integer]

/-- C7 at `n = 42`, whose rendering is the input `42`. -/
theorem integer_round_trip_witness :
    decimalRendering 42 = "42".toList ∧
    ∃ (c : Cmd) (A : Arguments (List Char)) (a : Argument (List Char)),
      Cmd.new (schema ["?i"]) = .ok c ∧
      Cmd.tryRun atofField c (some (decimalRendering 42))
        = .ok { returned := true, calls := [A] } ∧
      A[0]? = some a ∧ a.getType = .integer ∧ a.getInt = 42 :=
  ⟨by decide, integer_round_trip atofField 42 (by decide) (by decide)⟩

/-! ## Text appended after a space -/

theorem takeWhile_append_stop {α : Type} (p : α → Bool) (v e : List α) (x : α)
    (hx : p x = false) : (v ++ x :: e).takeWhile p = v.takeWhile p := by
  induction v with
  | nil => simp [List.takeWhile, hx]
  | cons y ys ih =>
    by_cases hy : p y = true
    · simp [List.takeWhile_cons, hy, ih]
    · simp [List.takeWhile_cons, hy]

theorem dropWhile_append_of_ne_nil {α : Type} (p : α → Bool) (v w : List α)
    (h : v.dropWhile p ≠ []) : (v ++ w).dropWhile p = v.dropWhile p ++ w := by
  induction v with
  | nil => simp at h
  | cons y ys ih =>
    by_cases hy : p y = true
    · simp only [List.cons_append, List.dropWhile_cons, hy, if_true] at h ⊢
      exact ih h
    · simp [List.dropWhile_cons, hy]

theorem leadingRun_append_space (u e : List Char) :
    leadingRun (u ++ ' ' :: e) = leadingRun u :=
  takeWhile_append_stop _ u e ' ' (by simp)

/-- The result of `Argument::text` depends on its argument through the leading run only. -/
theorem text_append_space {F : Type} (u e : List Char) :
    (Argument.text (u ++ ' ' :: e) : Except Fault (Argument F)) = Argument.text u := by
  by_cases h : (leadingRun u).length ≤ CLI_ARG_MAX_TEXT_LEN
  · rw [text_of_le u h, text_of_le _ (by rw [leadingRun_append_space]; exact h),
      leadingRun_append_space]
  · rw [text_of_gt u (by omega), text_of_gt _ (by rw [leadingRun_append_space]; omega)]

theorem digitsVal_append_space (cs e : List Char) :
    ∀ acc, digitsVal acc (cs ++ ' ' :: e) = digitsVal acc cs := by
  induction cs with
  | nil => intro acc; simp [digitsVal, isdigit]
  | cons c cs ih =>
    intro acc
    by_cases h : isdigit c = true
    · simp [digitsVal, h, ih]
    · simp [digitsVal, h]

theorem atoi_append_space (u e : List Char) (h : HasNonSpace u) :
    atoi (u ++ ' ' :: e) = atoi u := by
  induction u with
  | nil => obtain ⟨ch, hch, _⟩ := h; simp at hch
  | cons c cs ih =>
    by_cases hsp : isspace c = true
    · have hcs : HasNonSpace cs := by
        obtain ⟨ch, hch, hns⟩ := h
        rcases List.mem_cons.1 hch with rfl | hmem
        · rw [hsp] at hns; cases hns
        · exact ⟨ch, hmem, hns⟩
      simp only [List.cons_append, atoi, hsp, if_true]
      exact ih hcs
    · have h0 := digitsVal_append_space (c :: cs) e 0
      simp only [List.cons_append] at h0
      simp only [List.cons_append, atoi, hsp, List.append_eq, Bool.false_eq_true, if_false,
        digitsVal_append_space, h0]

theorem atofField_stopsAtSpace : AtofStopsAtSpace atofField := by
  intro u e h
  have hne : u.dropWhile isspace ≠ [] := by
    obtain ⟨ch, hch, hns⟩ := h
    intro hnil
    have := List.dropWhile_eq_nil_iff.1 hnil ch hch
    rw [hns] at this; cases this
  unfold atofField
  rw [dropWhile_append_of_ne_nil isspace u _ hne]
  exact takeWhile_append_stop _ _ e ' ' (by decide)

theorem skipWord_append (u w : List Char) (h : Cmd.skipWord u ≠ []) :
    Cmd.skipWord (u ++ w) = Cmd.skipWord u ++ w := by
  rw [skipWord_eq_dropWhile] at h ⊢
  rw [skipWord_eq_dropWhile]
  exact dropWhile_append_of_ne_nil _ u w h

theorem skipSpaces_append (u w : List Char) (h : Cmd.skipSpaces u ≠ []) :
    Cmd.skipSpaces (u ++ w) = Cmd.skipSpaces u ++ w := by
  rw [skipSpaces_eq_dropWhile] at h ⊢
  rw [skipSpaces_eq_dropWhile]
  exact dropWhile_append_of_ne_nil _ u w h

theorem advance_append (u w : List Char) (h : Cmd.advance u ≠ []) :
    Cmd.advance (u ++ w) = Cmd.advance u ++ w := by
  unfold Cmd.advance at h ⊢
  have h1 : Cmd.skipWord u ≠ [] := by
    intro hnil; rw [hnil] at h; exact h rfl
  rw [skipWord_append u w h1, skipSpaces_append _ w h]

theorem hasNonSpace_skipSpaces (v : List Char) (h : Cmd.skipSpaces v ≠ []) :
    HasNonSpace (Cmd.skipSpaces v) := by
  induction v with
  | nil => exact absurd rfl h
  | cons c cs ih =>
    by_cases hsp : isspace c = true
    · simp only [Cmd.skipSpaces, hsp, if_true] at h ⊢
      exact ih h
    · simp only [Cmd.skipSpaces, hsp]
      exact ⟨c, by simp, by simpa using hsp⟩

theorem hasNonSpace_advance (u : List Char) (h : Cmd.advance u ≠ []) :
    HasNonSpace (Cmd.advance u) :=
  hasNonSpace_skipSpaces _ h

theorem parse_argString {F : Type} (atof : List Char → F) (w : List Char) :
    (Token.ofStr "?s".toList).parse atof (some w) = Argument.text w := rfl

theorem parse_argDecimal {F : Type} (atof : List Char → F) (w : List Char) :
    (Token.ofStr "?f".toList).parse atof (some w) = .ok (Argument.decimal (atof w)) := rfl

theorem parse_empty_string {F : Type} (atof : List Char → F) (input : Option (List Char)) :
    (Token.ofStr []).parse atof input = .ok Argument.fail := rfl

/-- A successful parse is unchanged by text appended to the input after a
space. -/
theorem parse_append_space {F : Type} (atof : List Char → F) (hatof : AtofStopsAtSpace atof)
    (L u e : List Char) (a : Argument F) (hL : IsCStr L) (hu : HasNonSpace u)
    (hp : (Token.ofStr L).parse atof (some u) = .ok a) (hf : a.getType ≠ .fail) :
    (Token.ofStr L).parse atof (some (u ++ ' ' :: e)) = .ok a := by
  by_cases hnil : L = []
  · subst hnil
    rw [parse_empty_string] at hp
    cases hp
    exact absurd rfl hf
  · cases hty : Token.parseType L with
    | subcommand =>
      rw [parse_literal atof L u hnil hty] at hp
      rw [parse_literal atof L _ hnil hty]
      by_cases hcmp : (Token.ofStr L).cmp (some u) = true
      · have hpre : L <+: u ++ ' ' :: e :=
          ((cmp_ofStr_iff L u hnil hL).1 hcmp).trans (List.prefix_append _ _)
        rw [if_pos hcmp] at hp
        rw [if_pos ((cmp_ofStr_iff L _ hnil hL).2 hpre), text_append_space]
        exact hp
      · rw [if_neg hcmp] at hp
        cases hp
        exact absurd rfl hf
    | argString =>
      have := (parseType_cases L).1.1 hty
      subst this
      rw [parse_argString] at hp ⊢
      rw [text_append_space]; exact hp
    | argInteger =>
      have := (parseType_cases L).2.1.1 hty
      subst this
      rw [parse_argInteger] at hp ⊢
      rw [atoi_append_space u e hu]; exact hp
    | argDecimal =>
      have := (parseType_cases L).2.2.1.1 hty
      subst this
      rw [parse_argDecimal] at hp ⊢
      rw [hatof u e hu]; exact hp

section Loop

variable {F : Type} (atof : List Char → F)

theorem tryRunLoop_step_fault (part : Token) (rest : List Token) (input : Option (List Char))
    (args : Arguments F) (k : Nat) (a : Argument F) (he : part.isEmpty = false)
    (hp : part.parse atof input = .ok a) (hf : a.getType ≠ .fail) (hk : ¬ k < args.length) :
    Cmd.tryRunLoop atof (part :: rest) input args k = .error .argsIndex := by
  cases hty : a.getType with
  | fail => exact absurd hty hf
  | word => simp [Cmd.tryRunLoop, he, hp, hty, arrayStore, hk]
  | integer => simp [Cmd.tryRunLoop, he, hp, hty, arrayStore, hk]
  | decimal => simp [Cmd.tryRunLoop, he, hp, hty, arrayStore, hk]

/-- Past the last token the loop does not look at the input. -/
theorem tryRunLoop_tail (tail : List Token)
    (htail : tail = [] ∨ ∃ t rest, tail = t :: rest ∧ t.isEmpty = true)
    (inp inp' : Option (List Char)) (args : Arguments F) (k : Nat) :
    Cmd.tryRunLoop atof tail inp args k = Cmd.tryRunLoop atof tail inp' args k := by
  rcases htail with rfl | ⟨t, rest, rfl, ht⟩
  · rfl
  · rw [tryRunLoop_empty atof t rest inp args k ht, tryRunLoop_empty atof t rest inp' args k ht]

theorem tryRunLoop_append_space (hatof : AtofStopsAtSpace atof) (e : List Char)
    (tail : List Token) (htail : tail = [] ∨ ∃ t rest, tail = t :: rest ∧ t.isEmpty = true)
    (toks : List Token) :
    ∀ (u : List Char) (args : Arguments F) (k : Nat) (r : RunResult F),
      (∀ t ∈ toks, ∃ L, IsCStr L ∧ t = Token.ofStr L) →
      (toks ≠ [] → HasNonSpace u) →
      (∀ j, 1 ≤ j → j < toks.length → Cmd.advance^[j] u ≠ []) →
      Cmd.tryRunLoop atof (toks ++ tail) (some u) args k = .ok r → r.returned = true →
      Cmd.tryRunLoop atof (toks ++ tail) (some (u ++ ' ' :: e)) args k = .ok r := by
  induction toks with
  | nil =>
    intro u args k r _ _ _ h _
    rw [List.nil_append] at h ⊢
    rw [tryRunLoop_tail atof tail htail _ (some u)]; exact h
  | cons tok toks ih =>
    intro u args k r hwf hu hadv h hr
    obtain ⟨L, hL, rfl⟩ := hwf _ (List.mem_cons_self _ _)
    have he : (Token.ofStr L).isEmpty = false := rfl
    have hu' : HasNonSpace u := hu (by simp)
    rw [List.cons_append] at h ⊢
    cases hp : (Token.ofStr L).parse atof (some u) with
    | error err =>
      rw [tryRunLoop_error atof _ _ _ args k err he hp] at h; cases h
    | ok a =>
      by_cases hf : a.getType = .fail
      · rw [tryRunLoop_fail atof _ _ _ args k a he hp hf] at h
        cases h; cases hr
      · by_cases hk : k < args.length
        · have hp' := parse_append_space atof hatof L u e a hL hu' hp hf
          rw [tryRunLoop_step atof _ _ _ args k a he hp hf hk] at h
          rw [tryRunLoop_step atof _ _ _ args k a he hp' hf hk]
          simp only [Option.map_some'] at h ⊢
          by_cases hnil : toks = []
          · subst hnil
            rw [List.nil_append] at h ⊢
            rw [tryRunLoop_tail atof tail htail _ (some (Cmd.advance u))]; exact h
          · have hlen : 1 < (Token.ofStr L :: toks).length := by
              cases toks with
              | nil => exact absurd rfl hnil
              | cons _ _ => simp
            have hne : Cmd.advance u ≠ [] := by
              have := hadv 1 (le_refl _) hlen
              simpa using this
            rw [advance_append u _ hne]
            refine ih (Cmd.advance u) _ (k + 1) r
              (fun t ht => hwf t (List.mem_cons_of_mem _ ht))
              (fun _ => hasNonSpace_advance u hne) (fun j hj1 hj => ?_) h hr
            have := hadv (j + 1) (by omega) (by simp; omega)
            rwa [Function.iterate_succ_apply] at this
        · rw [tryRunLoop_step_fault atof _ _ _ args k a he hp hf hk] at h; cases h

end Loop

theorem hasNonSpace_of_wordSuffix_zero (s : List Char) (h : wordSuffix s 0 ≠ []) :
    HasNonSpace s := by
  by_contra hcon
  apply h
  simp only [wordSuffix]
  apply List.dropWhile_eq_nil_iff.2
  intro x hx
  by_contra hx'
  exact hcon ⟨x, hx, by simpa using hx'⟩

theorem iterate_advance_ne_nil (s : List Char) (n j : Nat) (hw : HasWords s n)
    (hj1 : 1 ≤ j) (hj : j < n) : Cmd.advance^[j] s ≠ [] := by
  by_cases hs : NoLeadingSpace s
  · rw [iterate_advance_eq_wordSuffix s hs j]; exact hw j hj
  · cases s with
    | nil => exact absurd (fun ch h => by simp at h) hs
    | cons c cs =>
      have hc : isspace c = true := by
        by_contra hc
        exact hs (fun ch h => by
          simp at h; subst h; simpa using hc)
      obtain ⟨j', rfl⟩ : ∃ j', j = j' + 1 := ⟨j - 1, by omega⟩
      have hadv : Cmd.advance (c :: cs) = Cmd.skipSpaces (c :: cs) := by
        simp [Cmd.advance, Cmd.skipWord, hc]
      rw [Function.iterate_succ_apply, hadv, iterate_advance_skipSpaces]
      exact hw j' (by omega)

/-- C8: when the input `s` has at least as many words as the command has
tokens and `tryRun(s)` returns true after invoking the handler with the array
`A`, then for every further text `e` the run on `s`, a space and `e` also
returns true and invokes the handler with the same array `A`. -/
theorem trailing_words_ignored {F : Type} (atof : List Char → F)
    (hatof : AtofStopsAtSpace atof) (strs : List (List Char)) (c : Cmd) (s e : List Char)
    (A : Arguments F) (hstr : ∀ L ∈ strs, IsCStr L)
    (hc : Cmd.new (strs.map Token.ofStr) = .ok c) (hw : HasWords s strs.length)
    (hr : Cmd.tryRun atof c (some s) = .ok { returned := true, calls := [A] }) :
    Cmd.tryRun atof c (some (s ++ ' ' :: e)) = .ok { returned := true, calls := [A] } := by
  have hn : (strs.map Token.ofStr).length ≤ CLI_MAX_CMD_PARTS := by
    by_contra hgt
    rw [new_of_gt _ (by omega)] at hc; cases hc
  rw [new_of_le _ hn] at hc
  cases hc
  unfold Cmd.tryRun at hr ⊢
  have htail : ∀ m : Nat, List.replicate m ({} : Token) = [] ∨
      ∃ t rest, List.replicate m ({} : Token) = t :: rest ∧ t.isEmpty = true := by
    intro m
    cases m with
    | zero => exact Or.inl rfl
    | succ m => exact Or.inr ⟨{}, List.replicate m {}, rfl, rfl⟩
  refine tryRunLoop_append_space atof hatof e _ (htail _) _ s _ 0 _ ?_ ?_ ?_ hr rfl
  · intro t ht
    obtain ⟨L, hL, rfl⟩ := List.mem_map.1 ht
    exact ⟨L, hstr L hL, rfl⟩
  · intro hne
    apply hasNonSpace_of_wordSuffix_zero
    apply hw 0
    cases strs with
    | nil => exact absurd rfl hne
    | cons _ _ => simp
  · intro j hj1 hj
    exact iterate_advance_ne_nil s strs.length j hw hj1 (by simpa using hj)

/-- C8 on the schema `ping`: the input `ping extra stuff` succeeds like the
input `ping`, with the same array. -/
theorem trailing_words_ignored_witness :
    Cmd.tryRun atofField { m_parts := schema ["ping"] ++ [{}, {}, {}], m_numParts := 1 }
        (some "ping".toList)
      = .ok { returned := true,
              calls := [[Argument.ofWord "ping".toList, Argument.fail, Argument.fail,
                Argument.fail]] } ∧
    Cmd.tryRun atofField { m_parts := schema ["ping"] ++ [{}, {}, {}], m_numParts := 1 }
        (some "ping extra stuff".toList)
      = .ok { returned := true,
              calls := [[Argument.ofWord "ping".toList, Argument.fail, Argument.fail,
                Argument.fail]] } :=
  ⟨by decide,
   trailing_words_ignored atofField atofField_stopsAtSpace ["ping".toList]
    { m_parts := schema ["ping"] ++ [{}, {}, {}], m_numParts := 1 }
    "ping".toList "extra stuff".toList
    [Argument.ofWord "ping".toList, Argument.fail, Argument.fail, Argument.fail]
    (by decide) (by decide) (by unfold HasWords; decide) (by decide)⟩

/-! ## Words that fit into the `text` array -/

/-- Literal matching when the leading run of `w` fits into the `text` array:
`parse` returns a word exactly when `w` starts with `L`, and `fail`
otherwise. -/
theorem parse_literal_of_fits {F : Type} (atof : List Char → F) (L w : List Char)
    (hL : L ≠ []) (hLc : IsCStr L) (hty : Token.parseType L = .subcommand)
    (hrun : (leadingRun w).length ≤ CLI_ARG_MAX_TEXT_LEN) :
    ((∃ a, (Token.ofStr L).parse atof (some w) = .ok a ∧ a.getType = .word) ↔ L <+: w) ∧
    (¬ L <+: w → (Token.ofStr L).parse atof (some w) = .ok Argument.fail) := by
  rw [parse_literal atof L w hL hty]
  by_cases hcmp : (Token.ofStr L).cmp (some w) = true
  · have hpre := (cmp_ofStr_iff L w hL hLc).1 hcmp
    rw [if_pos hcmp, text_of_le w hrun]
    exact ⟨⟨fun _ => hpre, fun _ => ⟨_, rfl, rfl⟩⟩, fun h => absurd hpre h⟩
  · have hpre : ¬ L <+: w := fun h => hcmp ((cmp_ofStr_iff L w hL hLc).2 h)
    rw [if_neg hcmp]
    refine ⟨⟨?_, fun h => absurd h hpre⟩, fun _ => rfl⟩
    rintro ⟨a, ha, hw⟩
    cases ha
    cases hw

/-- The string placeholder when the leading run of `w` leaves room for the
terminator: `parse` returns the word whose text is that run. -/
theorem parse_argString_of_fits {F : Type} (atof : List Char → F) (w : List Char)
    (hw : IsCStr w) (hrun : (leadingRun w).length < CLI_ARG_MAX_TEXT_LEN) :
    (Token.ofStr "?s".toList).parse atof (some w) = .ok (Argument.ofWord (leadingRun w)) ∧
    (Argument.ofWord (leadingRun w) : Argument F).getType = .word ∧
    (Argument.ofWord (leadingRun w) : Argument F).getText = some (leadingRun w) := by
  rw [parse_argString, text_of_le w (le_of_lt hrun)]
  exact ⟨rfl, rfl, getText_ofWord _ (leadingRun_isCStr w hw) hrun⟩

/-- The string placeholder when the leading run of `w` is longer than the
`text` array: the copy runs past the end of the array. -/
theorem parse_argString_of_gt {F : Type} (atof : List Char → F) (w : List Char)
    (hrun : CLI_ARG_MAX_TEXT_LEN < (leadingRun w).length) :
    (Token.ofStr "?s".toList).parse atof (some w) = .error .textOverflow := by
  rw [parse_argString, text_of_gt w hrun]

/-! ## Numeric placeholders -/

theorem atoi_dropWhile (w : List Char) : atoi w = atoi (w.dropWhile isspace) := by
  induction w with
  | nil => rfl
  | cons c cs ih =>
    by_cases h : isspace c = true
    · simp only [List.dropWhile_cons, h, if_true]
      rw [← ih]
      simp [atoi, h]
    · simp [List.dropWhile_cons, h]

theorem digitsVal_of_no_digit (acc : Nat) (r : List Char)
    (h : ∀ c, r.head? = some c → isdigit c = false) : digitsVal acc r = acc := by
  cases r with
  | nil => rfl
  | cons c cs =>
    have := h c rfl
    simp [digitsVal, this]

theorem wrapInt32_zero : wrapInt32 0 = 0 := by decide

/-- The value of `atoi` on a word without a numeric prefix is 0. -/
theorem atoi_of_noNumericPrefix (w : List Char) (h : NoNumericPrefix w) : atoi w = 0 := by
  unfold NoNumericPrefix at h
  rw [atoi_dropWhile]
  cases hr : w.dropWhile isspace with
  | nil => rfl
  | cons x t =>
    rw [hr] at h
    have hx : isspace x = false := by
      have := List.head_dropWhile_not isspace w (by rw [hr]; simp)
      simpa [hr] using this
    by_cases h1 : x = '-'
    · subst h1
      simp only [true_or, if_true] at h
      simp [atoi, hx, digitsVal_of_no_digit 0 t h, wrapInt32_zero]
    · by_cases h2 : x = '+'
      · subst h2
        simp only [or_true, if_true] at h
        simp [atoi, hx, digitsVal_of_no_digit 0 t h, wrapInt32_zero]
      · simp only [h1, h2, or_self, if_false] at h
        simp [atoi, hx, h1, h2, digitsVal_of_no_digit 0 (x :: t) h, wrapInt32_zero]

/-- C11: on every non-null word `Token("?i").parse` returns an Argument of type
`integer` and `Token("?f").parse` one of type `decimal`, never `fail`; when the
word has no numeric prefix the integer is 0. -/
theorem numeric_placeholders_never_fail {F : Type} (atof : List Char → F) (w : List Char) :
    (∃ a, (Token.ofStr "?i".toList).parse atof (some w) = .ok a ∧ a.getType = .integer ∧
      (NoNumericPrefix w → a.getInt = 0)) ∧
    (∃ a, (Token.ofStr "?f".toList).parse atof (some w) = .ok a ∧ a.getType = .decimal) := by
  refine ⟨⟨Argument.integer (atoi w), rfl, rfl, fun h => ?_⟩, ⟨Argument.decimal (atof w), rfl, rfl⟩⟩
  rw [atoi_of_noNumericPrefix w h]
  simp [Argument.getInt, Argument.getType, Argument.integer]

/-- C11 on the word `-x7 2`, which has no digit after its sign. -/
theorem numeric_placeholders_never_fail_witness :
    NoNumericPrefix " -x7 2".toList ∧
    (Token.ofStr "?i".toList).parse atofField (some " -x7 2".toList)
      = .ok (Argument.integer 0) ∧
    (∃ a, (Token.ofStr "?i".toList).parse atofField (some " -x7 2".toList) = .ok a ∧
      a.getType = .integer ∧ (NoNumericPrefix " -x7 2".toList → a.getInt = 0)) ∧
    (∃ a, (Token.ofStr "?f".toList).parse atofField (some " -x7 2".toList) = .ok a ∧
      a.getType = .decimal) :=
  ⟨by unfold NoNumericPrefix; decide, by decide,
    (numeric_placeholders_never_fail atofField " -x7 2".toList).1,
    (numeric_placeholders_never_fail atofField " -x7 2".toList).2⟩

/-! ## The integer accessor -/

/-- C15: `Argument::integer(v)` has type `integer` and `getInt() = v`; an
Argument of type `fail`, `word` or `decimal` gives `getInt() = 0`. -/
theorem integer_accessor {F : Type} (v : Int) (a : Argument F)
    (ha : a.getType = .fail ∨ a.getType = .word ∨ a.getType = .decimal) :
    (Argument.integer v : Argument F).getType = .integer ∧
    (Argument.integer v : Argument F).getInt = v ∧ a.getInt = 0 := by
  refine ⟨rfl, by simp [Argument.getInt, Argument.getType, Argument.integer], ?_⟩
  have hne : a.getType ≠ .integer := by
    rcases ha with h | h | h <;> rw [h] <;> decide
  simp [Argument.getInt, hne]

/-- C15 at `v = 42` and the word Argument `set`. -/
theorem integer_accessor_witness :
    (Argument.integer 42 : Argument (List Char)).getType = .integer ∧
    (Argument.integer 42 : Argument (List Char)).getInt = 42 ∧
    (Argument.ofWord "set".toList : Argument (List Char)).getInt = 0 :=
  integer_accessor 42 (Argument.ofWord "set".toList) (Or.inr (Or.inl rfl))

/-! ## Shape of a successful run -/

/-- A run of a command built from at most `CLI_MAX_CMD_PARTS` non-empty tokens
that returns true: the handler was called once with an array of
`CLI_MAX_CMD_PARTS` slots; slot `i` of a token holds the Argument, other than
`fail`, that the token parsed at the cursor of iteration `i`; every slot after
the tokens is a default Argument. -/
theorem tryRun_true_slots {F : Type} (atof : List Char → F) (toks : List Token)
    (input : Option (List Char)) (c : Cmd) (r : RunResult F)
    (hn : toks.length ≤ CLI_MAX_CMD_PARTS) (hne : ∀ t ∈ toks, t.isEmpty = false)
    (hc : Cmd.new toks = .ok c)
    (hr : Cmd.tryRun atof c input = .ok r) (ht : r.returned = true) :
    ∃ A, r.calls = [A] ∧ A.length = CLI_MAX_CMD_PARTS ∧
      (∀ (i : Nat) (t : Token), toks[i]? = some t →
        ∃ a, A[i]? = some a ∧ t.parse atof (cursorAt input i) = .ok a ∧ a.getType ≠ .fail) ∧
      (∀ i, toks.length ≤ i → i < CLI_MAX_CMD_PARTS → A[i]? = some {}) := by
  rw [new_of_le toks hn] at hc
  cases hc
  unfold Cmd.tryRun at hr
  obtain ⟨A, hA, hlen, _, m, hmle, hhigh, hmid, hstop⟩ :=
    tryRunLoop_true atof _ input (Arguments.init F) 0 r
      (by simp [Arguments.init]; omega) hr ht
  have hm : toks.length ≤ m := by
    rcases hstop with h | ⟨t, ht, hte⟩
    · rw [h]; simp
    · by_contra hlt
      have hlt : m < toks.length := by omega
      rw [List.getElem?_append_left hlt] at ht
      have := hne t (List.mem_iff_getElem?.2 ⟨m, ht⟩)
      rw [this] at hte; cases hte
  have hm' : m ≤ toks.length := by
    by_contra hgt
    obtain ⟨t, a, ht, hte, _⟩ := hmid toks.length (by omega)
    rw [List.getElem?_append_right (le_refl _)] at ht
    simp only [Nat.sub_self] at ht
    have hmem : t ∈ List.replicate (CLI_MAX_CMD_PARTS - toks.length) ({} : Token) :=
      List.mem_iff_getElem?.2 ⟨0, ht⟩
    have := (List.mem_replicate.1 hmem).2
    subst this
    cases hte
  refine ⟨A, hA, by simpa [Arguments.init] using hlen, fun i t hit => ?_, fun i hi hi4 => ?_⟩
  · have hi : i < toks.length := by
      by_contra hcon
      rw [List.getElem?_eq_none (by omega)] at hit; cases hit
    obtain ⟨t', a, ht', _, hp, hf, hAi⟩ := hmid i (by omega)
    rw [getElem?_parts_of_lt toks _ i t hit] at ht'
    cases ht'
    exact ⟨a, by simpa using hAi, hp, hf⟩
  · rw [hhigh i (by omega)]
    simp [Arguments.init, hi4]

/-- The only fault of `Argument::text` is the overrun of the `text` array. -/
theorem text_error_eq {F : Type} (w : List Char) (e : Fault)
    (h : (Argument.text w : Except Fault (Argument F)) = .error e) : e = .textOverflow := by
  by_cases hle : (leadingRun w).length ≤ CLI_ARG_MAX_TEXT_LEN
  · rw [text_of_le w hle] at h; cases h
  · rw [text_of_gt w (by omega)] at h; cases h; rfl

/-- The only fault of `Token::parse` is the overrun of the `text` array. -/
theorem parse_error_eq {F : Type} (atof : List Char → F) (t : Token)
    (input : Option (List Char)) (e : Fault) (h : t.parse atof input = .error e) :
    e = .textOverflow := by
  unfold Token.parse at h
  split at h
  · cases h
  · split at h
    · cases h
    · split at h
      · split at h
        · exact text_error_eq _ e h
        · cases h
      · exact text_error_eq _ e h
      · cases h
      · cases h

/-- The loop never stores to `arguments` at an index outside the array when
the parts left and the slots used fit into it. -/
theorem tryRunLoop_ne_argsIndex {F : Type} (atof : List Char → F) (parts : List Token) :
    ∀ (input : Option (List Char)) (args : Arguments F) (k : Nat),
      parts.length + k ≤ args.length →
      Cmd.tryRunLoop atof parts input args k ≠ .error .argsIndex := by
  induction parts with
  | nil => intro input args k _ h; simp [Cmd.tryRunLoop] at h
  | cons part rest ih =>
    intro input args k hlen h
    by_cases he : part.isEmpty = true
    · rw [tryRunLoop_empty atof part rest input args k he] at h; cases h
    · have he : part.isEmpty = false := by simpa using he
      cases hp : part.parse atof input with
      | error e =>
        rw [tryRunLoop_error atof part rest input args k e he hp] at h
        cases h
        exact absurd (parse_error_eq atof part input _ hp) (by decide)
      | ok a =>
        by_cases hf : a.getType = .fail
        · rw [tryRunLoop_fail atof part rest input args k a he hp hf] at h; cases h
        · have hk : k < args.length := by simp at hlen; omega
          rw [tryRunLoop_step atof part rest input args k a he hp hf hk] at h
          exact ih _ _ _ (by simp at hlen ⊢; omega) h

/-- C13: when `tryRun` of a command built from `n <= CLI_MAX_CMD_PARTS`
non-empty tokens returns true, the array passed to the handler has slots
`0..n-1` of a type other than `fail` and default `fail` Arguments in the slots
from `n` on; and on no input does the loop store to `arguments` at an index
outside the array. -/
theorem argument_array_shape {F : Type} (atof : List Char → F) (toks : List Token)
    (input : Option (List Char)) (c : Cmd) (r : RunResult F)
    (hn : toks.length ≤ CLI_MAX_CMD_PARTS) (hne : ∀ t ∈ toks, t.isEmpty = false)
    (hc : Cmd.new toks = .ok c)
    (hr : Cmd.tryRun atof c input = .ok r) (ht : r.returned = true) :
    (∃ A, r.calls = [A] ∧ A.length = CLI_MAX_CMD_PARTS ∧
      (∀ i, i < toks.length → ∃ a, A[i]? = some a ∧ a.getType ≠ .fail) ∧
      (∀ i, toks.length ≤ i → i < CLI_MAX_CMD_PARTS →
        A[i]? = some Argument.fail ∧ (Argument.fail : Argument F).getType = .fail)) ∧
    (∀ input', Cmd.tryRun atof c input' ≠ .error .argsIndex) := by
  obtain ⟨A, hA, hlen, hslots, hrest⟩ := tryRun_true_slots atof toks input c r hn hne hc hr ht
  refine ⟨⟨A, hA, hlen, fun i hi => ?_, fun i hi hi4 => ⟨hrest i hi hi4, rfl⟩⟩, fun input' => ?_⟩
  · obtain ⟨a, ha, _, hf⟩ := hslots i toks[i] (by simp [hi])
    exact ⟨a, ha, hf⟩
  · rw [new_of_le toks hn] at hc
    cases hc
    exact tryRunLoop_ne_argsIndex atof _ input' _ 0 (by simp [Arguments.init]; omega)

/-- C13 on the schema `set ?i` and the input `set 3`: two slots filled, two
default. -/
theorem argument_array_shape_witness :
    (∃ A, [[Argument.ofWord "set".toList, Argument.integer 3, Argument.fail,
          (Argument.fail : Argument (List Char))]] = [A] ∧
      A.length = CLI_MAX_CMD_PARTS ∧
      (∀ i, i < (schema ["set", "?i"]).length → ∃ a, A[i]? = some a ∧ a.getType ≠ .fail) ∧
      (∀ i, (schema ["set", "?i"]).length ≤ i → i < CLI_MAX_CMD_PARTS →
        A[i]? = some Argument.fail ∧
          (Argument.fail : Argument (List Char)).getType = .fail)) ∧
    (∀ input', Cmd.tryRun atofField
        { m_parts := schema ["set", "?i"] ++ [{}, {}], m_numParts := 2 } input'
      ≠ .error .argsIndex) :=
  argument_array_shape atofField (schema ["set", "?i"]) (some "set 3".toList)
    { m_parts := schema ["set", "?i"] ++ [{}, {}], m_numParts := 2 }
    { returned := true,
      calls := [[Argument.ofWord "set".toList, Argument.integer 3, Argument.fail,
        Argument.fail]] }
    (by decide) (by decide) (by decide) (by decide) rfl

/-! ## Tokens that cannot parse -/

theorem parse_default {F : Type} (atof : List Char → F) (w : Option (List Char)) :
    ({} : Token).parse atof w = .ok Argument.fail := rfl

theorem cmp_false_of_head_ne (l0 : Char) (ls : List Char) (w : List Char)
    (h : l0 ≠ w.getD 0 NUL) : (Token.ofStr (l0 :: ls)).cmp (some w) = false := by
  simp only [Token.cmp, Token.ofStr, Token.len, Token.parseLen, strlen, List.length_cons,
    Nat.add_one_ne_zero, if_false]
  rw [List.all_eq_false]
  exact ⟨0, by simp, by simpa using h⟩

/-- C20: when the first token is a non-empty literal that does not begin with
a white-space character and the input begins with one, `tryRun` returns false
and the handler is not invoked. -/
theorem leading_whitespace_not_skipped {F : Type} (atof : List Char → F) (c : Cmd)
    (l0 : Char) (ls : List Char) (rest : List Token) (w0 : Char) (ws : List Char)
    (hparts : c.m_parts = Token.ofStr (l0 :: ls) :: rest)
    (hty : Token.parseType (l0 :: ls) = .subcommand)
    (hl : isspace l0 = false) (hw : isspace w0 = true) :
    Cmd.tryRun atof c (some (w0 :: ws)) = .ok { returned := false, calls := [] } := by
  have hne : l0 ≠ (w0 :: ws).getD 0 NUL := by
    intro e
    simp at e
    rw [e, hw] at hl; cases hl
  have hp : (Token.ofStr (l0 :: ls)).parse atof (some (w0 :: ws)) = .ok Argument.fail := by
    rw [parse_literal atof (l0 :: ls) _ (by simp) hty, cmp_false_of_head_ne l0 ls _ hne]
    rfl
  unfold Cmd.tryRun
  rw [hparts]
  exact tryRunLoop_fail atof _ rest _ _ 0 _ rfl hp rfl

/-- C20 on the schema `set ?i` and the input ` set 3`, which would match
without its leading space. -/
theorem leading_whitespace_not_skipped_witness :
    Cmd.tryRun atofField { m_parts := schema ["set", "?i"] ++ [{}, {}], m_numParts := 2 }
        (some " set 3".toList)
      = .ok { returned := false, calls := [] } ∧
    Cmd.tryRun atofField { m_parts := schema ["set", "?i"] ++ [{}, {}], m_numParts := 2 }
        (some "set 3".toList)
      = .ok { returned := true,
              calls := [[Argument.ofWord "set".toList, Argument.integer 3, Argument.fail,
                Argument.fail]] } :=
  ⟨leading_whitespace_not_skipped atofField
      { m_parts := schema ["set", "?i"] ++ [{}, {}], m_numParts := 2 }
      's' "et".toList (schema ["?i"] ++ [({} : Token), {}]) ' ' "set 3".toList
      (by decide) (by decide) (by decide) (by decide),
   by decide⟩

/-! ## Fewer words than tokens -/

theorem wordSuffix_eq_nil_of_le (s : List Char) (k : Nat) (h : wordSuffix s k = []) :
    ∀ i, k ≤ i → wordSuffix s i = [] := by
  intro i hi
  induction i with
  | zero =>
    have : k = 0 := by omega
    subst this; exact h
  | succ i ih =>
    by_cases hk : k = i + 1
    · subst hk; exact h
    · rw [← advance_wordSuffix, ih (by omega)]; rfl

theorem cursorAt_some_eq_wordSuffix (s : List Char) (hs : NoLeadingSpace s) (i : Nat) :
    cursorAt (some s) i = some (wordSuffix s i) := by
  simp [cursorAt, iterate_advance_eq_wordSuffix s hs i]

/-- A non-empty literal token does not parse at the end of the input. -/
theorem parse_literal_nil {F : Type} (atof : List Char → F) (L : List Char) (hL : L ≠ [])
    (hLc : IsCStr L) (hty : Token.parseType L = .subcommand) :
    (Token.ofStr L).parse atof (some []) = .ok Argument.fail := by
  rw [parse_literal atof L _ hL hty]
  have : (Token.ofStr L).cmp (some []) = false := by
    have := (cmp_ofStr_iff L [] hL hLc).not.2 (fun h => hL (List.prefix_nil.1 h))
    simpa using this
  rw [this]; rfl

/-- Too few words, literal case, for a run that returns: when the input has no
`k`-th word and token `k` is a non-empty literal, a run of `tryRun` that
returns has returned false without invoking the handler. -/
theorem too_few_words_literal_of_ok {F : Type} (atof : List Char → F) (toks : List Token)
    (s : List Char) (k : Nat) (L : List Char) (c : Cmd) (r : RunResult F)
    (hn : toks.length ≤ CLI_MAX_CMD_PARTS) (hne : ∀ t ∈ toks, t.isEmpty = false)
    (hs : NoLeadingSpace s) (hc : Cmd.new toks = .ok c)
    (hk : toks[k]? = some (Token.ofStr L)) (hL : L ≠ []) (hLc : IsCStr L)
    (hty : Token.parseType L = .subcommand) (hwords : wordSuffix s k = [])
    (hr : Cmd.tryRun atof c (some s) = .ok r) :
    r = { returned := false, calls := [] } := by
  have hret : r.returned = false := by
    by_contra ht
    have ht : r.returned = true := by simpa using ht
    obtain ⟨A, _, _, hslots, _⟩ := tryRun_true_slots atof toks (some s) c r hn hne hc hr ht
    obtain ⟨a, _, hp, hf⟩ := hslots k _ hk
    rw [cursorAt_some_eq_wordSuffix s hs k, hwords, parse_literal_nil atof L hL hLc hty] at hp
    cases hp
    exact hf rfl
  have hcalls := tryRunLoop_false_calls atof c.m_parts (some s) _ 0 r hr hret
  obtain ⟨ret, calls⟩ := r
  simp only at hret hcalls
  subst hret; subst hcalls; rfl

/-- C12: on the schema `?s x` the input `aaaaaaaaaaaaaaaaa` has one word, fewer
than the two tokens, and the absent word belongs to the literal `x`; the run
does not return false: parsing the first word copies its 17 bytes past the end
of the `text` array. -/
theorem too_few_words_literal_overruns :
    wordSuffix (List.replicate 17 'a') 1 = [] ∧
    Cmd.new (schema ["?s", "x"])
      = .ok { m_parts := schema ["?s", "x"] ++ [{}, {}], m_numParts := 2 } ∧
    Cmd.tryRun atofField { m_parts := schema ["?s", "x"] ++ [{}, {}], m_numParts := 2 }
        (some (List.replicate 17 'a'))
      = .error .textOverflow := by
  decide

/-- When every token parses, at its cursor, to an Argument other than `fail`,
the loop returns true after one call of the handler. -/
theorem tryRunLoop_of_parses {F : Type} (atof : List Char → F) (tail : List Token)
    (htail : tail = [] ∨ ∃ t rest, tail = t :: rest ∧ t.isEmpty = true)
    (toks : List Token) :
    ∀ (input : Option (List Char)) (args : Arguments F) (k : Nat),
      toks.length + k ≤ args.length →
      (∀ (j : Nat) (t : Token), toks[j]? = some t → t.isEmpty = false ∧
        ∃ a, t.parse atof (cursorAt input j) = .ok a ∧ a.getType ≠ .fail) →
      ∃ A, Cmd.tryRunLoop atof (toks ++ tail) input args k
        = .ok { returned := true, calls := [A] } := by
  induction toks with
  | nil =>
    intro input args k _ _
    rcases htail with rfl | ⟨t, rest, rfl, ht⟩
    · exact ⟨args, rfl⟩
    · exact ⟨args, tryRunLoop_empty atof t rest input args k ht⟩
  | cons tok toks ih =>
    intro input args k hlen h
    obtain ⟨he, a, hp, hf⟩ := h 0 tok (by simp)
    rw [cursorAt_zero] at hp
    have hk : k < args.length := by simp at hlen; omega
    rw [List.cons_append, tryRunLoop_step atof tok _ input args k a he hp hf hk]
    apply ih (input.map Cmd.advance) (args.set k a) (k + 1) (by simp at hlen ⊢; omega)
    intro j t hj
    have := h (j + 1) t (by simpa using hj)
    rwa [cursorAt_succ]

/-- The placeholders at the end of the input: `?s` gives the word with empty
text, `?i` the integer 0 and `?f` the decimal `atof` reads from the empty
string. -/
theorem parse_placeholder_nil {F : Type} (atof : List Char → F) :
    (Token.ofStr "?s".toList).parse atof (some []) = .ok (Argument.ofWord []) ∧
    (Token.ofStr "?i".toList).parse atof (some []) = .ok (Argument.integer 0) ∧
    (Token.ofStr "?f".toList).parse atof (some []) = .ok (Argument.decimal (atof [])) :=
  ⟨rfl, rfl, rfl⟩

theorem replicate_default_tail (m : Nat) :
    List.replicate m ({} : Token) = [] ∨
      ∃ t rest, List.replicate m ({} : Token) = t :: rest ∧ t.isEmpty = true := by
  cases m with
  | zero => exact Or.inl rfl
  | succ m => exact Or.inr ⟨{}, List.replicate m {}, rfl, rfl⟩

/-- C16: when the input, which does not start with white space, has no `k`-th
word (it has at most `k` words), the first `k` tokens match their words and
every token from index `k` on is a placeholder, `tryRun` returns true and the handler receives, for each such
token, the word with empty text for `?s`, the integer 0 for `?i` and the
decimal 0 (what `atof` gives for the empty string) for `?f`. -/
theorem too_few_words_placeholders {F : Type} (atof : List Char → F) (zero : F)
    (hzero : atof [] = zero) (strs : List (List Char)) (s : List Char) (k : Nat) (c : Cmd)
    (hn : strs.length ≤ CLI_MAX_CMD_PARTS) (hs : NoLeadingSpace s)
    (hc : Cmd.new (strs.map Token.ofStr) = .ok c)
    (hwords : wordSuffix s k = [])
    (hmatch : ∀ (i : Nat) (str : List Char), i < k → strs[i]? = some str →
      ∃ a, (Token.ofStr str).parse atof (some (wordSuffix s i)) = .ok a ∧ a.getType ≠ .fail)
    (hph : ∀ (i : Nat) (str : List Char), k ≤ i → strs[i]? = some str →
      str = "?s".toList ∨ str = "?i".toList ∨ str = "?f".toList) :
    ∃ A, Cmd.tryRun atof c (some s) = .ok { returned := true, calls := [A] } ∧
      ∀ (i : Nat) (str : List Char), k ≤ i → strs[i]? = some str →
        (str = "?s".toList → A[i]? = some (Argument.ofWord []) ∧
          (Argument.ofWord [] : Argument F).getText = some []) ∧
        (str = "?i".toList → A[i]? = some (Argument.integer 0)) ∧
        (str = "?f".toList → A[i]? = some (Argument.decimal zero)) := by
  have hn' : (strs.map Token.ofStr).length ≤ CLI_MAX_CMD_PARTS := by simpa using hn
  have hne : ∀ t ∈ strs.map Token.ofStr, t.isEmpty = false := by
    intro t ht
    obtain ⟨str, _, rfl⟩ := List.mem_map.1 ht
    rfl
  have hcur : ∀ i, k ≤ i → cursorAt (some s) i = some [] := by
    intro i hi
    rw [cursorAt_some_eq_wordSuffix s hs i, wordSuffix_eq_nil_of_le s k hwords i hi]
  have hc' := hc
  rw [new_of_le _ hn'] at hc'
  cases hc'
  obtain ⟨A, hA⟩ := tryRunLoop_of_parses atof _ (replicate_default_tail _)
    (strs.map Token.ofStr) (some s) (Arguments.init F) 0
    (by simp [Arguments.init]; omega)
    (by
      intro j t hj
      rw [List.getElem?_map] at hj
      cases hstr : strs[j]? with
      | none => rw [hstr] at hj; cases hj
      | some str =>
        rw [hstr] at hj
        simp only [Option.map_some', Option.some.injEq] at hj
        subst hj
        refine ⟨rfl, ?_⟩
        by_cases hjk : j < k
        · rw [cursorAt_some_eq_wordSuffix s hs j]
          exact hmatch j str hjk hstr
        · rw [hcur j (by omega)]
          rcases hph j str (by omega) hstr with rfl | rfl | rfl
          · exact ⟨_, (parse_placeholder_nil atof).1, by simp [Argument.getType, Argument.ofWord]⟩
          · exact ⟨_, (parse_placeholder_nil atof).2.1,
              by simp [Argument.getType, Argument.integer]⟩
          · exact ⟨_, (parse_placeholder_nil atof).2.2, by simp [Argument.getType, Argument.decimal]⟩)
  have hrun : Cmd.tryRun atof
      { m_parts := strs.map Token.ofStr ++
          List.replicate (CLI_MAX_CMD_PARTS - (strs.map Token.ofStr).length) {},
        m_numParts := (strs.map Token.ofStr).length } (some s)
      = .ok { returned := true, calls := [A] } := hA
  refine ⟨A, hrun, fun i str hi hstr => ?_⟩
  obtain ⟨A', hA', _, hslots, _⟩ :=
    tryRun_true_slots atof (strs.map Token.ofStr) (some s) _ _ hn' hne hc hrun rfl
  have hAA : A' = A := by
    simp only [List.cons.injEq, and_true] at hA'
    exact hA'.symm
  subst hAA
  obtain ⟨a, ha, hp, _⟩ := hslots i (Token.ofStr str) (by rw [List.getElem?_map, hstr]; rfl)
  rw [hcur i hi] at hp
  refine ⟨fun h => ?_, fun h => ?_, fun h => ?_⟩
  · subst h
    rw [(parse_placeholder_nil atof).1] at hp
    cases hp
    exact ⟨ha, getText_ofWord [] (by simp [IsCStr]) (by decide)⟩
  · subst h
    rw [(parse_placeholder_nil atof).2.1] at hp
    cases hp
    exact ha
  · subst h
    rw [(parse_placeholder_nil atof).2.2, hzero] at hp
    cases hp
    exact ha

/-- C16 on the schema `set ?i` and the input `set`: the run succeeds with the
integer 0 in slot 1. -/
theorem too_few_words_placeholders_witness :
    Cmd.tryRun atofField { m_parts := schema ["set", "?i"] ++ [{}, {}], m_numParts := 2 }
        (some "set".toList)
      = .ok { returned := true,
              calls := [[Argument.ofWord "set".toList, Argument.integer 0, Argument.fail,
                Argument.fail]] } ∧
    ∃ A, Cmd.tryRun atofField
          { m_parts := schema ["set", "?i"] ++ [{}, {}], m_numParts := 2 } (some "set".toList)
        = .ok { returned := true, calls := [A] } ∧
      ∀ (i : Nat) (str : List Char), 1 ≤ i → ["set".toList, "?i".toList][i]? = some str →
        (str = "?s".toList → A[i]? = some (Argument.ofWord []) ∧
          (Argument.ofWord [] : Argument (List Char)).getText = some []) ∧
        (str = "?i".toList → A[i]? = some (Argument.integer 0)) ∧
        (str = "?f".toList → A[i]? = some (Argument.decimal [])) :=
  ⟨by decide,
   too_few_words_placeholders atofField [] rfl ["set".toList, "?i".toList] "set".toList 1
    { m_parts := schema ["set", "?i"] ++ [{}, {}], m_numParts := 2 }
    (by decide) (by decide) (by decide) (by decide)
    (by
      intro i str hi h
      obtain rfl : i = 0 := by omega
      simp only [List.getElem?_cons_zero, Option.some.injEq] at h
      subst h
      exact ⟨Argument.ofWord "set".toList, by decide, by decide⟩)
    (by
      intro i str hi h
      match i, hi, h with
      | 1, _, h =>
        simp only [List.getElem?_cons_succ, List.getElem?_cons_zero, Option.some.injEq] at h
        exact Or.inr (Or.inl h.symm)
      | i + 2, _, h => simp at h)⟩

/-! ## The cursor -/

theorem skipWord_suffix (u : List Char) : Cmd.skipWord u <:+ u := by
  rw [skipWord_eq_dropWhile]; exact List.dropWhile_suffix _

theorem skipSpaces_suffix (u : List Char) : Cmd.skipSpaces u <:+ u := by
  rw [skipSpaces_eq_dropWhile]; exact List.dropWhile_suffix _

theorem advance_suffix (u : List Char) : Cmd.advance u <:+ u :=
  (skipSpaces_suffix _).trans (skipWord_suffix u)

theorem iterate_advance_suffix (s : List Char) (i : Nat) : Cmd.advance^[i] s <:+ s := by
  induction i with
  | zero => exact List.suffix_refl s
  | succ i ih =>
    rw [Function.iterate_succ_apply']
    exact (advance_suffix _).trans ih

/-- The first inner loop stops at the end of the string or at a white-space
character. -/
theorem skipWord_stops (u : List Char) :
    Cmd.skipWord u = [] ∨ ∃ c t, Cmd.skipWord u = c :: t ∧ isspace c = true := by
  induction u with
  | nil => exact Or.inl rfl
  | cons x xs ih =>
    by_cases h : isspace x = true
    · right; exact ⟨x, xs, by simp [Cmd.skipWord, h], h⟩
    · simpa [Cmd.skipWord, h] using ih

/-- The second inner loop, started right after a white-space character `c`,
stops at the end of the string or at a character that is not white space and
follows a white-space character. -/
theorem skipSpaces_lands (t : List Char) :
    ∀ c : Char, isspace c = true →
      Cmd.skipSpaces t = [] ∨ ∃ pre ws d rest, c :: t = pre ++ ws :: d :: rest ∧
        Cmd.skipSpaces t = d :: rest ∧ isspace ws = true ∧ isspace d = false := by
  induction t with
  | nil => intro c _; exact Or.inl rfl
  | cons x xs ih =>
    intro c hc
    by_cases h : isspace x = true
    · rcases ih x h with h0 | ⟨pre, ws, d, rest, he, hs, hws, hd⟩
      · left; simpa [Cmd.skipSpaces, h] using h0
      · right
        exact ⟨c :: pre, ws, d, rest, by rw [he]; rfl, by simpa [Cmd.skipSpaces, h] using hs,
          hws, hd⟩
    · right
      exact ⟨[], c, x, xs, rfl, by simp [Cmd.skipSpaces, h], hc, by simpa using h⟩

/-- After the two inner loops the cursor is at the end of the string or at the
first character of a word, right after a white-space character. -/
theorem advance_lands (u : List Char) :
    Cmd.advance u = [] ∨ ∃ pre ws d rest, u = pre ++ ws :: d :: rest ∧
      Cmd.advance u = d :: rest ∧ isspace ws = true ∧ isspace d = false := by
  unfold Cmd.advance
  obtain ⟨p, hp⟩ := skipWord_suffix u
  rcases skipWord_stops u with h0 | ⟨c, t, hct, hc⟩
  · left; rw [h0]; rfl
  · rw [hct] at hp ⊢
    have hstep : Cmd.skipSpaces (c :: t) = Cmd.skipSpaces t := by simp [Cmd.skipSpaces, hc]
    rw [hstep]
    rcases skipSpaces_lands t c hc with h0 | ⟨pre, ws, d, rest, he, hs, hws, hd⟩
    · exact Or.inl h0
    · right
      refine ⟨p ++ pre, ws, d, rest, ?_, hs, hws, hd⟩
      rw [← hp, he, List.append_assoc]

theorem drop_length_sub_of_suffix (s t : List Char) (h : t <:+ s) :
    s.drop (s.length - t.length) = t := by
  obtain ⟨p, rfl⟩ := h
  simp

/-- C17: the cursor of the dispatch loop stays inside the input up to its
terminator (it is a suffix of the input, at a position that does not exceed the
length), each of the two inner loops only moves it forward, and after the
advance step of an iteration it is at the terminator or at a character that is
not white space and follows a white-space character of the input. -/
theorem cursor_invariant (s : List Char) (i : Nat) :
    ∃ cur nxt, cursorAt (some s) i = some cur ∧ cursorAt (some s) (i + 1) = some nxt ∧
      nxt = Cmd.skipSpaces (Cmd.skipWord cur) ∧
      cur <:+ s ∧ Cmd.skipWord cur <:+ cur ∧ nxt <:+ Cmd.skipWord cur ∧ nxt <:+ s ∧
      s.length - cur.length ≤ s.length - nxt.length ∧
      s.length - nxt.length ≤ s.length ∧
      s.drop (s.length - nxt.length) = nxt ∧
      (nxt = [] ∨ ∃ pre ws d rest, s = pre ++ ws :: d :: rest ∧ nxt = d :: rest ∧
        isspace ws = true ∧ isspace d = false) := by
  have hcur := iterate_advance_suffix s i
  have hnxt := iterate_advance_suffix s (i + 1)
  have hstep : Cmd.advance^[i + 1] s = Cmd.advance (Cmd.advance^[i] s) :=
    Function.iterate_succ_apply' _ _ _
  refine ⟨Cmd.advance^[i] s, Cmd.advance^[i + 1] s, rfl, rfl, hstep, hcur,
    skipWord_suffix _, ?_, hnxt, ?_, Nat.sub_le _ _, ?_, ?_⟩
  · rw [hstep]; exact skipSpaces_suffix _
  · have h1 : (Cmd.advance^[i + 1] s).length ≤ (Cmd.advance^[i] s).length := by
      rw [hstep]; exact (advance_suffix _).length_le
    omega
  · exact drop_length_sub_of_suffix _ _ hnxt
  · rw [hstep]
    rcases advance_lands (Cmd.advance^[i] s) with h0 | ⟨pre, ws, d, rest, he, hs, hws, hd⟩
    · exact Or.inl h0
    · right
      obtain ⟨p, hp⟩ := hcur
      exact ⟨p ++ pre, ws, d, rest, by rw [← hp, he, List.append_assoc], hs, hws, hd⟩

/-! ## The reads of `Token::cmp` -/

/-- The loop of `cmp` either compares all `n` positions equal, reading each of
them, or stops at the first position `j` that differs, having read the
positions up to `j`. -/
theorem cmpLoop_spec (m s : List Char) :
    ∀ n i,
      ((cmpLoop m s i n).1 = true ∧ (cmpLoop m s i n).2 = List.range' i n ∧
        ∀ l, i ≤ l → l < i + n → m.getD l NUL = s.getD l NUL) ∨
      (∃ j, i ≤ j ∧ j < i + n ∧ (cmpLoop m s i n).1 = false ∧
        (cmpLoop m s i n).2 = List.range' i (j - i + 1) ∧
        m.getD j NUL ≠ s.getD j NUL ∧ ∀ l, i ≤ l → l < j → m.getD l NUL = s.getD l NUL) := by
  intro n
  induction n with
  | zero =>
    intro i
    left
    exact ⟨rfl, rfl, fun l h1 h2 => absurd h2 (by omega)⟩
  | succ n ih =>
    intro i
    by_cases hne : m.getD i NUL ≠ s.getD i NUL
    · have e : cmpLoop m s i (n + 1) = (false, [i]) := by rw [cmpLoop, if_pos hne]
      right
      exact ⟨i, le_refl _, by omega, by rw [e], by rw [e]; simp, hne,
        fun l h1 h2 => absurd h2 (by omega)⟩
    · have e : cmpLoop m s i (n + 1)
          = ((cmpLoop m s (i + 1) n).1, i :: (cmpLoop m s (i + 1) n).2) := by
        rw [cmpLoop, if_neg hne]
      have heq : m.getD i NUL = s.getD i NUL := by
        by_contra hcon; exact hne hcon
      rcases ih (i + 1) with ⟨h1, h2, h3⟩ | ⟨j, hj1, hj2, h1, h2, h3, h4⟩
      · left
        refine ⟨by rw [e]; exact h1, ?_, fun l hl1 hl2 => ?_⟩
        · rw [e, List.range'_succ]
          exact congrArg (List.cons i) h2
        · by_cases hl : l = i
          · subst hl; exact heq
          · exact h3 l (by omega) (by omega)
      · right
        refine ⟨j, by omega, by omega, by rw [e]; exact h1, ?_, h3, fun l hl1 hl2 => ?_⟩
        · have hlen : j - i + 1 = (j - (i + 1) + 1) + 1 := by omega
          rw [e, hlen, List.range'_succ]
          exact congrArg (List.cons i) h2
        · by_cases hl : l = i
          · subst hl; exact heq
          · exact h4 l (by omega) hl2

theorem getD_ne_nul_of_isCStr (L : List Char) (hL : IsCStr L) (l : Nat) (h : l < L.length) :
    L.getD l NUL ≠ NUL := by
  intro e
  apply hL
  rw [← e]
  simp [List.getD_eq_getElem?_getD, List.getElem?_eq_getElem h]

theorem lt_length_of_getD_ne_nul (w : List Char) (l : Nat) (h : w.getD l NUL ≠ NUL) :
    l < w.length := by
  by_contra hcon
  apply h
  simp [List.getD_eq_getElem?_getD, List.getElem?_eq_none (by omega : w.length ≤ l)]

/-- C18: for a non-empty literal token `L` and every input `w`, the loop of
`cmp` computes the result of `cmp` and reads `w` only at indices up to
`strlen(w)`, the terminator included; when `cmp` returns false it has read the
indices up to the first one at which `L` and `w` differ, which is no later
than the terminator of `w`; when it returns true it has read the first `len()`
indices, all before the terminator. -/
theorem cmp_reads_inside_input (L w : List Char) (hL : L ≠ []) (hLc : IsCStr L) :
    (cmpLoop L w 0 L.length).1 = (Token.ofStr L).cmp (some w) ∧
    (∀ j ∈ (Token.ofStr L).cmpReads (some w), j ≤ w.length) ∧
    ((Token.ofStr L).cmp (some w) = false →
      ∃ j, (Token.ofStr L).cmpReads (some w) = List.range (j + 1) ∧
        L.getD j NUL ≠ w.getD j NUL ∧ (∀ l, l < j → L.getD l NUL = w.getD l NUL) ∧
        j ≤ w.length ∧ j < L.length) ∧
    ((Token.ofStr L).cmp (some w) = true →
      (Token.ofStr L).cmpReads (some w) = List.range L.length ∧ L.length ≤ w.length) := by
  have hlen : L.length ≠ 0 := by simpa using hL
  have hcmp : (Token.ofStr L).cmp (some w)
      = (List.range L.length).all fun i => L.getD i NUL == w.getD i NUL := by
    simp [Token.cmp, Token.ofStr, Token.len, Token.parseLen, strlen, hlen]
  have hreads : (Token.ofStr L).cmpReads (some w) = (cmpLoop L w 0 L.length).2 := by
    simp [Token.cmpReads, Token.ofStr, Token.len, Token.parseLen, strlen, hlen]
  have hin : ∀ l, l < L.length → L.getD l NUL = w.getD l NUL → l < w.length := by
    intro l hl he
    apply lt_length_of_getD_ne_nul
    rw [← he]
    exact getD_ne_nul_of_isCStr L hLc l hl
  rw [hcmp, hreads]
  rcases cmpLoop_spec L w L.length 0 with ⟨h1, h2, h3⟩ | ⟨j, _, hj, h1, h2, h3, h4⟩
  · have hall : ((List.range L.length).all fun i => L.getD i NUL == w.getD i NUL) = true := by
      rw [List.all_eq_true]
      intro x hx
      have hx : x < L.length := List.mem_range.1 hx
      simpa using h3 x (Nat.zero_le _) (by omega)
    have hle : L.length ≤ w.length := by
      have := hin (L.length - 1) (by omega) (h3 _ (Nat.zero_le _) (by omega))
      omega
    rw [h1, h2, hall, ← List.range_eq_range']
    refine ⟨rfl, fun x hx => ?_, fun h => (by cases h), fun _ => ⟨rfl, hle⟩⟩
    have hx : x < L.length := List.mem_range.1 hx
    omega
  · have hj' : j < L.length := by omega
    have hall : ((List.range L.length).all fun i => L.getD i NUL == w.getD i NUL) = false := by
      rw [List.all_eq_false]
      exact ⟨j, List.mem_range.2 hj', by simpa using h3⟩
    have hjw : j ≤ w.length := by
      by_cases hj0 : j = 0
      · omega
      · have := hin (j - 1) (by omega) (h4 _ (Nat.zero_le _) (by omega))
        omega
    have hrange : List.range' 0 (j - 0 + 1) = List.range (j + 1) := by
      rw [List.range_eq_range']; rfl
    rw [h1, h2, hall, hrange]
    refine ⟨rfl, fun x hx => ?_, fun _ => ⟨j, rfl, h3, fun l hl => h4 l (Nat.zero_le _) hl,
      hjw, hj'⟩, fun h => by cases h⟩
    have hx : x < j + 1 := List.mem_range.1 hx
    omega

/-- C18 on the literal `set` and the shorter input `se`: the loop reads the
indices 0, 1 and 2, the last being the terminator of the input, and returns
false there; on the empty input it reads index 0 only. -/
theorem cmp_reads_inside_input_witness :
    (Token.ofStr "set".toList).cmpReads (some "se".toList) = [0, 1, 2] ∧
    (Token.ofStr "set".toList).cmpReads (some []) = [0] ∧
    (Token.ofStr "set".toList).cmp (some "se".toList) = false ∧
    ∀ j ∈ (Token.ofStr "set".toList).cmpReads (some "se".toList), j ≤ "se".toList.length :=
  ⟨by decide, by decide, by decide,
    (cmp_reads_inside_input "set".toList "se".toList (by decide) (by decide)).2.1⟩

/-! ## Word boundaries of the capture and of the cursor -/

/-- The captured run and the word the cursor moves across are the same when
the captured run holds no white-space character, as for words separated by
space characters only. -/
theorem leadingRun_eq_currentWord (u : List Char)
    (h : ∀ c ∈ leadingRun u, isspace c = false) : leadingRun u = currentWord u := by
  induction u with
  | nil => rfl
  | cons x xs ih =>
    by_cases hx : x = ' '
    · subst hx
      simp [leadingRun, currentWord, List.takeWhile_cons]
      decide
    · have hrun : leadingRun (x :: xs) = x :: leadingRun xs := by
        simp [leadingRun, List.takeWhile_cons, hx]
      rw [hrun] at h ⊢
      have hsp : isspace x = false := h x (by simp)
      have hcw : currentWord (x :: xs) = x :: currentWord xs := by
        simp [currentWord, List.takeWhile_cons, hsp]
      rw [hcw, ih (fun c hc => h c (List.mem_cons_of_mem _ hc))]

/-- C19: on the schema `?s ?s` and the input `ab`, tab, `cd` the text captured
for the first `?s` is the whole input `ab`, tab, `cd`, because the capture
stops at a space character only, while the cursor moves across the word `ab`
and stops at the tab; the second `?s` then captures `cd` again. -/
theorem capture_disagrees_with_cursor :
    Cmd.tryRun atofField { m_parts := schema ["?s", "?s"] ++ [{}, {}], m_numParts := 2 }
        (some "ab\tcd".toList)
      = .ok { returned := true,
              calls := [[Argument.ofWord "ab\tcd".toList, Argument.ofWord "cd".toList,
                Argument.fail, Argument.fail]] } ∧
    (Argument.ofWord "ab\tcd".toList : Argument (List Char)).getText = some "ab\tcd".toList ∧
    currentWord "ab\tcd".toList = "ab".toList ∧
    Cmd.skipWord "ab\tcd".toList = "\tcd".toList ∧
    Cmd.advance "ab\tcd".toList = "cd".toList := by
  decide

end cli
